import Mathlib

/-! Kitten LWK: physical-memory region descriptors and the lwIP adapter layer.

A shallow embedding of

* `include/lwk/pmem.h`: `pmem_type_t`, `struct pmem_region` and the four core
  operations it declares (`pmem_add`, `pmem_update`, `pmem_query`, `pmem_alloc`);
* `net/api/arch.c`: the counting semaphores, the ring-buffer mailboxes and the
  timed wait loops the lwIP stack runs on.

Machine integers are `Nat`/`Int`; where the C code relies on a width the
reduction modulo `2 ^ w` is written out.
-/

namespace Kitten

/-! ## include/lwk/pmem.h -/

/-- Physical memory types (`pmem_type_t`). -/
inductive pmem_type_t where
  | PMEM_TYPE_BOOTMEM
  | PMEM_TYPE_BIGPHYSAREA
  | PMEM_TYPE_INIT_TASK
  | PMEM_TYPE_KMEM
  | PMEM_TYPE_UMEM
  deriving DecidableEq, Repr

/-- The integer value of each enumerator of `pmem_type_t`. -/
def pmem_type_t.toNat : pmem_type_t → Nat
  | .PMEM_TYPE_BOOTMEM => 0
  | .PMEM_TYPE_BIGPHYSAREA => 1
  | .PMEM_TYPE_INIT_TASK => 2
  | .PMEM_TYPE_KMEM => 3
  | .PMEM_TYPE_UMEM => 4

/-- Modelled from the spec: the typedef of `lgroup_t` is not in `pmem.h`; the
spec calls it the identifier of a topology domain, taken here as a number. -/
abbrev lgroup_t := Nat

/-- The `char name[32]` member: thirty-two bytes. -/
abbrev name_t := Mathlib.Vector Nat 32

/-- The name whose bytes are all NUL, i.e. the empty C string. -/
def empty_name : name_t := Mathlib.Vector.replicate 32 0

/-- Defines a physical memory region (`struct pmem_region`): the region
occupies `[start, end)`; each of `type`, `lgroup`, `allocated`, `name` is a raw
value accompanied by its own `*_is_set` flag. -/
structure pmem_region where
  start : Nat
  «end» : Nat
  type_is_set : Bool
  type : pmem_type_t
  lgroup_is_set : Bool
  lgroup : lgroup_t
  allocated_is_set : Bool
  allocated : Bool
  name_is_set : Bool
  name : name_t
  deriving DecidableEq

/-- Two descriptors cover the same interval `[start, end)`. -/
def same_interval (a b : pmem_region) : Prop :=
  a.start = b.start ∧ a.«end» = b.«end»

/-- Two descriptors carry the same four presence flags. -/
def same_flags (a b : pmem_region) : Prop :=
  a.type_is_set = b.type_is_set ∧ a.lgroup_is_set = b.lgroup_is_set ∧
  a.allocated_is_set = b.allocated_is_set ∧ a.name_is_set = b.name_is_set

/-- Two descriptors hold equal values in every field whose flag is set. -/
def same_present_values (a b : pmem_region) : Prop :=
  (a.type_is_set = true → a.type = b.type) ∧
  (a.lgroup_is_set = true → a.lgroup = b.lgroup) ∧
  (a.allocated_is_set = true → a.allocated = b.allocated) ∧
  (a.name_is_set = true → a.name = b.name)

/-- Two descriptors hold equal raw values in every field whose flag is clear. -/
def same_absent_values (a b : pmem_region) : Prop :=
  (a.type_is_set = false → a.type = b.type) ∧
  (a.lgroup_is_set = false → a.lgroup = b.lgroup) ∧
  (a.allocated_is_set = false → a.allocated = b.allocated) ∧
  (a.name_is_set = false → a.name = b.name)

/-- A descriptor with all four flags clear over `[0, 4096)`. -/
def rgn_unset : pmem_region :=
  { start := 0, «end» := 4096,
    type_is_set := false, type := .PMEM_TYPE_BOOTMEM,
    lgroup_is_set := false, lgroup := 0,
    allocated_is_set := false, allocated := false,
    name_is_set := false, name := empty_name }

/-- The same bytes as `rgn_unset` with all four flags set: type
`PMEM_TYPE_BOOTMEM`, lgroup 0, not allocated, empty name. -/
def rgn_set : pmem_region :=
  { rgn_unset with
    type_is_set := true, lgroup_is_set := true,
    allocated_is_set := true, name_is_set := true }

/-- As `rgn_unset`, except that the raw `type` member, whose flag is clear,
holds `PMEM_TYPE_UMEM`. -/
def rgn_unset_umem : pmem_region :=
  { rgn_unset with type := .PMEM_TYPE_UMEM }

/-! ## net/api/arch.c -/

/-- Rough estimate of CPU speed in KHz (`static const uint64_t cpu_hz`). -/
def cpu_hz : Nat := 2400000

/-- Modelled from the spec: `lwip/err.h` is not among the sources; `ERR_OK` is
lwIP's "no error" code. -/
def ERR_OK : Int := 0

/-- Modelled from the spec: `lwip/err.h` is not among the sources; `ERR_MEM` is
lwIP's "out of memory" code. -/
def ERR_MEM : Int := -1

/-- Modelled from the spec: `lwip/sys.h` is not among the sources;
`SYS_ARCH_TIMEOUT` is lwIP's `0xffffffff`. -/
def SYS_ARCH_TIMEOUT : Nat := 0xffffffff

/-- Modelled from the spec: `lwip/sys.h` is not among the sources;
`SYS_MBOX_EMPTY` is lwIP's alias of `SYS_ARCH_TIMEOUT`. -/
def SYS_MBOX_EMPTY : Nat := SYS_ARCH_TIMEOUT

/-- Largest value of a C `int`. -/
def INT_MAX : Int := 2 ^ 31 - 1

/-- Reduction of an integer into the range of a 32-bit two's complement
`int`. -/
def wrap_int (x : Int) : Int := (x + 2 ^ 31) % 2 ^ 32 - 2 ^ 31

/-! ### Semaphores -/

/-- The body of `sys_sem_new`: the freshly allocated `int` receives the `u8_t`
argument `count`. -/
def sys_sem_new (count : Nat) : Int := ((count % 256 : Nat) : Int)

/-- The body of `sys_sem_signal`: `(*sem)++` under `sem_lock`, on a 32-bit
two's complement `int`. -/
def sys_sem_signal (sem : Int) : Int := wrap_int (sem + 1)

/-- The `uint64_t` difference `rdtsc() - start_time`. -/
def delta_ticks (now start_time : Nat) : Nat :=
  (now % 2 ^ 64 + 2 ^ 64 - start_time % 2 ^ 64) % 2 ^ 64

/-- The `uint64_t` product `timeout * cpu_hz` for a `u32_t` timeout. -/
def timeout_ticks (timeout : Nat) : Nat := (timeout % 2 ^ 32 * cpu_hz) % 2 ^ 64

/-- How one pass through the body of a polling loop ends: by returning
`SYS_ARCH_TIMEOUT` from the timeout branch, by calling `schedule()` and going
round again, or by returning the elapsed time after acquiring. -/
inductive poll_t where
  | timed_out
  | again
  | acquired (ret : Nat)
  deriving DecidableEq, Repr

/-- The `u32_t` a pass returns to the caller, if it returns. -/
def poll_t.retval : poll_t → Option Nat
  | .timed_out => some SYS_ARCH_TIMEOUT
  | .again => none
  | .acquired ret => some ret

/-- One pass through the `while( 1 )` body of `sys_arch_sem_wait`; `d` is the
value of `delta_ticks` computed at the top of the pass. -/
def sem_wait_pass (sem : Int) (timeout d : Nat) : Int × poll_t :=
  if timeout % 2 ^ 32 ≠ 0 ∧ d > timeout_ticks timeout then
    (sem, .timed_out)
  else
    let value := sem
    if value = 0 then
      (sem, .again)
    else
      (wrap_int (sem - 1), .acquired ((d / cpu_hz) % 2 ^ 32))

/-- The function `sys_arch_sem_wait`: `start_time` is the first `rdtsc()`
reading and `tsc` the readings of the successive passes.  The result is the
counter afterwards and the pass that left the loop, whose `retval` is the
`u32_t` returned; `schedule()` returns with the semaphore as this caller left
it; `none` when the readings run out with the loop still polling. -/
def sys_arch_sem_wait (sem : Int) (timeout start_time : Nat) :
    List Nat → Option (Int × poll_t)
  | [] => none
  | now :: tsc =>
    match sem_wait_pass sem timeout (delta_ticks now start_time) with
    | (s, .again) => sys_arch_sem_wait s timeout start_time tsc
    | (s, r) => some (s, r)

/-- A call on a semaphore as seen by its counter: a `sys_sem_signal`, or one
pass of a `sys_arch_sem_wait(sem, timeout)` whose elapsed tick count is `d`. -/
inductive sem_event where
  | signal
  | wait_pass (timeout d : Nat)
  deriving DecidableEq, Repr

/-- The counter after one event. -/
def sem_step (sem : Int) : sem_event → Int
  | .signal => sys_sem_signal sem
  | .wait_pass timeout d => (sem_wait_pass sem timeout d).1

/-- The counter after a sequence of events, oldest first. -/
def sem_run (sem : Int) : List sem_event → Int
  | [] => sem
  | e :: es => sem_run (sem_step sem e) es

/-- The event is a wait pass that acquires the semaphore whose counter is
`sem`. -/
def sem_acquires (sem : Int) : sem_event → Bool
  | .signal => false
  | .wait_pass timeout d =>
    match (sem_wait_pass sem timeout d).2 with
    | .acquired _ => true
    | _ => false

/-- Number of `sys_sem_signal` events in a sequence. -/
def sem_signals : List sem_event → Nat
  | [] => 0
  | .signal :: es => sem_signals es + 1
  | .wait_pass _ _ :: es => sem_signals es

/-- Number of acquiring wait passes in a sequence run from counter `sem`. -/
def sem_acquisitions (sem : Int) : List sem_event → Nat
  | [] => 0
  | e :: es =>
    (if sem_acquires sem e then 1 else 0) + sem_acquisitions (sem_step sem e) es

/-- The counter stays within the range of `int`: no increment is applied to
`INT_MAX` anywhere along the sequence. -/
def sem_in_range (sem : Int) : List sem_event → Bool
  | [] => true
  | .signal :: es => decide (sem < INT_MAX) && sem_in_range (sys_sem_signal sem) es
  | .wait_pass timeout d :: es => sem_in_range (sem_wait_pass sem timeout d).1 es

/-! ### Mailboxes -/

/-- Modelled from the spec: the declaration of `struct sys_mbox` is not among
the sources; these are the members `arch.c` accesses, the three `int`s `size`,
`read`, `write` and the slot array `msgs[]` of `void *`, a slot being addressed
by its index. -/
structure sys_mbox where
  size : Int
  read : Int
  write : Int
  msgs : Int → Nat

/-- The function `sys_mbox_new`; `mem` is the content of the slots as
`kmem_alloc` hands them out. -/
def sys_mbox_new (mem : Int → Nat) (size : Int) : sys_mbox :=
  let size := if size ≤ 0 then 8 else size
  { size := size, read := 0, write := 0, msgs := mem }

/-- One pass through the `while(1)` body of `_sys_mbox_post`: the mailbox
afterwards and the `err_t` returned, or `none` when the pass ends in
`schedule()`. -/
def _sys_mbox_post_pass (mbox : sys_mbox) (msg : Nat) (try_once : Bool) :
    sys_mbox × Option Int :=
  let write := mbox.write
  let next := Int.tmod (write + 1) mbox.size
  if next ≠ mbox.read then
    ({ mbox with msgs := Function.update mbox.msgs write msg, write := next },
      some ERR_OK)
  else if try_once then
    (mbox, some ERR_MEM)
  else
    (mbox, none)

/-- The function `_sys_mbox_post`, with at most `fuel` passes through its loop;
`none` when they are used up with the mailbox still full. -/
def _sys_mbox_post : Nat → sys_mbox → Nat → Bool → Option (sys_mbox × Int)
  | 0, _, _, _ => none
  | fuel + 1, mbox, msg, try_once =>
    match _sys_mbox_post_pass mbox msg try_once with
    | (m, some e) => some (m, e)
    | (m, none) => _sys_mbox_post fuel m msg try_once

/-- The function `sys_mbox_post`. -/
def sys_mbox_post (fuel : Nat) (mbox : sys_mbox) (msg : Nat) : Option sys_mbox :=
  (_sys_mbox_post fuel mbox msg false).map Prod.fst

/-- The function `sys_mbox_trypost`: `_sys_mbox_post( mbox, msg, 1 )`, whose
loop body is left on the first pass. -/
def sys_mbox_trypost (mbox : sys_mbox) (msg : Nat) : Option (sys_mbox × Int) :=
  _sys_mbox_post 1 mbox msg true

/-- The function `sys_arch_mbox_tryfetch`: the mailbox afterwards, the content
of `*msg` afterwards (`out` before the call) and the `u32_t` returned. -/
def sys_arch_mbox_tryfetch (mbox : sys_mbox) (out : Nat) : sys_mbox × Nat × Nat :=
  let read := mbox.read
  if read = mbox.write then
    (mbox, out, SYS_MBOX_EMPTY)
  else
    ({ mbox with read := Int.tmod (read + 1) mbox.size }, mbox.msgs read, 0)

/-- One pass through the `while( 1 )` body of `sys_arch_mbox_fetch`; `d` is
the value of `delta_ticks` computed at the top of the pass. -/
def mbox_fetch_pass (mbox : sys_mbox) (out : Nat) (timeout d : Nat) :
    sys_mbox × Nat × poll_t :=
  if timeout % 2 ^ 32 ≠ 0 ∧ d > timeout_ticks timeout then
    (mbox, out, .timed_out)
  else
    match sys_arch_mbox_tryfetch mbox out with
    | (m, o, r) =>
      if r = 0 then (m, o, .acquired ((d / cpu_hz) % 2 ^ 32))
      else (m, o, .again)

/-- The function `sys_arch_mbox_fetch`, driven by the `rdtsc()` readings like
`sys_arch_sem_wait`: the mailbox and `*msg` afterwards and the pass that left
the loop. -/
def sys_arch_mbox_fetch (mbox : sys_mbox) (out : Nat) (timeout start_time : Nat) :
    List Nat → Option (sys_mbox × Nat × poll_t)
  | [] => none
  | now :: tsc =>
    match mbox_fetch_pass mbox out timeout (delta_ticks now start_time) with
    | (m, o, .again) => sys_arch_mbox_fetch m o timeout start_time tsc
    | (m, o, r) => some (m, o, r)

/-- A non-blocking call on a mailbox. -/
inductive mbox_call where
  | trypost (msg : Nat)
  | tryfetch
  deriving DecidableEq, Repr

/-- The mailbox after one non-blocking call. -/
def mbox_step (mbox : sys_mbox) : mbox_call → sys_mbox
  | .trypost msg =>
    match sys_mbox_trypost mbox msg with
    | some (m, _) => m
    | none => mbox
  | .tryfetch => (sys_arch_mbox_tryfetch mbox 0).1

/-- The mailbox after a sequence of non-blocking calls, oldest first. -/
def mbox_run (mbox : sys_mbox) : List mbox_call → sys_mbox
  | [] => mbox
  | c :: cs => mbox_run (mbox_step mbox c) cs

/-- Results of `n` consecutive `sys_mbox_trypost` calls posting `msg 0`,
`msg 1`, ... -/
def trypost_results (msg : Nat → Nat) : Nat → Nat → sys_mbox → List (Option Int)
  | 0, _, _ => []
  | n + 1, i, mbox =>
    match sys_mbox_trypost mbox (msg i) with
    | some (m, e) => some e :: trypost_results msg n (i + 1) m
    | none => none :: trypost_results msg n (i + 1) mbox

/-- Messages a sequence of calls posted successfully (`sys_mbox_trypost`
returned `ERR_OK`), in posting order. -/
def mbox_posted (mbox : sys_mbox) : List mbox_call → List Nat
  | [] => []
  | .trypost msg :: cs =>
    (match sys_mbox_trypost mbox msg with
      | some (_, e) => if e = ERR_OK then [msg] else []
      | none => []) ++ mbox_posted (mbox_step mbox (.trypost msg)) cs
  | .tryfetch :: cs =>
    mbox_posted (mbox_step mbox .tryfetch) cs

/-- Messages a sequence of calls fetched (`sys_arch_mbox_tryfetch` returned 0
and stored the message in `*msg`), in fetching order. -/
def mbox_fetched (mbox : sys_mbox) : List mbox_call → List Nat
  | [] => []
  | .trypost msg :: cs => mbox_fetched (mbox_step mbox (.trypost msg)) cs
  | .tryfetch :: cs =>
    (match sys_arch_mbox_tryfetch mbox 0 with
      | (_, o, r) => if r = 0 then [o] else []) ++
      mbox_fetched (mbox_step mbox .tryfetch) cs

/-- The slots `msgs[r]`, `msgs[(r+1) % size]`, ... : `n` of them, in ring
order. -/
def mbox_slots (mbox : sys_mbox) : Int → Nat → List Nat
  | _, 0 => []
  | r, n + 1 => mbox.msgs r :: mbox_slots mbox (Int.tmod (r + 1) mbox.size) n

/-- The content of the ring between `read` and `write`. -/
def mbox_pending (mbox : sys_mbox) : List Nat :=
  mbox_slots mbox mbox.read ((mbox.write - mbox.read) % mbox.size).toNat

/-- Both indices of the ring lie inside its `size` slots. -/
def mbox_wf (mbox : sys_mbox) : Prop :=
  0 ≤ mbox.read ∧ mbox.read < mbox.size ∧ 0 ≤ mbox.write ∧ mbox.write < mbox.size

/-- A mailbox of four slots holding one message, 11, in slot 0. -/
def mbox_example : sys_mbox :=
  { size := 4, read := 0, write := 1, msgs := fun i => if i = 0 then 11 else 0 }

/-! ## The region table behind `pmem_add`, `pmem_update` and `pmem_alloc`

`pmem.h` only declares these functions; their bodies, and the table they work
on, are described in the design document (sections 3, 4.3 to 4.5 and 7). -/

/-- Modelled from the spec: the failure kinds of section 7; the C functions
return an `int` status. -/
inductive pmem_err where
  | InvalidRange
  | Conflict
  | NotFound
  | OutOfMemory
  deriving DecidableEq, Repr

/-- Modelled from the spec: the region table of section 3, the stored regions in
ascending order of `start`; the body of the table is not among the sources. -/
abbrev pmem_table := List pmem_region

/-- Modelled from the spec: the attribute set of a descriptor, "including
presence flags": each of the four optional fields read as present with its
value or absent. -/
def attrs (r : pmem_region) :
    Option pmem_type_t × Option lgroup_t × Option Bool × Option name_t :=
  (if r.type_is_set then some r.type else none,
   if r.lgroup_is_set then some r.lgroup else none,
   if r.allocated_is_set then some r.allocated else none,
   if r.name_is_set then some r.name else none)

/-- Modelled from the spec: two intervals `[start, end)` have a non-empty
intersection (section 4.3, "overlaps"). -/
def overlaps (a b : pmem_region) : Bool :=
  decide (a.start < b.«end») && decide (b.start < a.«end»)

/-- Modelled from the spec: the merge-adjacent-if-equal primitive of section 9
run along the table from the entry `cur`: the next entry is folded into `cur`
when it starts where `cur` ends, that boundary lies in the span `[lo, hi]` the
pass is run over, and the two are attribute-equal. -/
def merge_from (lo hi : Nat) (cur : pmem_region) : pmem_table → pmem_table
  | [] => [cur]
  | b :: rest =>
    if cur.«end» = b.start ∧ lo ≤ cur.«end» ∧ cur.«end» ≤ hi ∧ attrs cur = attrs b then
      merge_from lo hi { cur with «end» := b.«end» } rest
    else
      cur :: merge_from lo hi b rest

/-- Modelled from the spec: the merge pass of sections 4.3 and 4.4 over the
boundaries lying in `[lo, hi]`: the new entry's two boundaries for `add`, the
whole affected span for `update`. -/
def merge_span (lo hi : Nat) : pmem_table → pmem_table
  | [] => []
  | a :: rest => merge_from lo hi a rest

/-- Modelled from the spec: insertion of a new entry at its place in the
ascending order of `start` (section 3). -/
def table_insert (r : pmem_region) : pmem_table → pmem_table
  | [] => [r]
  | x :: xs => if r.start < x.start then r :: x :: xs else x :: table_insert r xs

/-- Modelled from the spec: `add` of section 4.3.  `start < end` is required,
else `InvalidRange`; an overlap with any stored region is a `Conflict`;
otherwise the region is inserted and the merge pass run on its two
boundaries. -/
def pmem_add (t : pmem_table) (rgn : pmem_region) : Except pmem_err pmem_table :=
  if ¬ rgn.start < rgn.«end» then .error .InvalidRange
  else if t.any (overlaps rgn) then .error .Conflict
  else .ok (merge_span rgn.start rgn.«end» (table_insert rgn t))

/-- Modelled from the spec: the split-at primitive of section 9: an entry with
the address `p` strictly inside becomes two entries meeting at `p`, both with
the attributes of the original. -/
def split_at (p : Nat) : pmem_table → pmem_table
  | [] => []
  | r :: rs =>
    if r.start < p ∧ p < r.«end» then
      { r with «end» := p } :: { r with start := p } :: split_at p rs
    else
      r :: split_at p rs

/-- Modelled from the spec: overwrite on `r` "exactly the fields present in the
update request"; fields absent in the request are left unchanged
(section 4.4). -/
def overwrite (update r : pmem_region) : pmem_region :=
  { r with
    type_is_set := update.type_is_set || r.type_is_set
    type := if update.type_is_set then update.type else r.type
    lgroup_is_set := update.lgroup_is_set || r.lgroup_is_set
    lgroup := if update.lgroup_is_set then update.lgroup else r.lgroup
    allocated_is_set := update.allocated_is_set || r.allocated_is_set
    allocated := if update.allocated_is_set then update.allocated else r.allocated
    name_is_set := update.name_is_set || r.name_is_set
    name := if update.name_is_set then update.name else r.name }

/-- Modelled from the spec: the overwrite applied to the entries inside the
update interval, the others kept (section 4.4). -/
def apply_update (update r : pmem_region) : pmem_region :=
  if update.start ≤ r.start ∧ r.«end» ≤ update.«end» then overwrite update r else r

/-- Modelled from the spec: the precondition of `update`: "every address in
`[start, end)` must already belong to some stored region" (section 4.4). -/
def fully_enclosed (t : pmem_table) (s e : Nat) : Bool :=
  (List.range' s (e - s)).all fun a =>
    t.any fun r => decide (r.start ≤ a) && decide (a < r.«end»)

/-- Modelled from the spec: `update` of section 4.4.  A malformed interval is an
`InvalidRange`; an interval not fully enclosed by stored regions is `NotFound`
with no change; otherwise the table is split at both ends of the interval, the
present fields overwritten on the entries inside, and the merge pass re-run
across the affected span. -/
def pmem_update (t : pmem_table) (update : pmem_region) : Except pmem_err pmem_table :=
  if ¬ update.start < update.«end» then .error .InvalidRange
  else if ¬ fully_enclosed t update.start update.«end» then .error .NotFound
  else .ok (merge_span update.start update.«end»
    ((split_at update.«end» (split_at update.start t)).map (apply_update update)))

/-- Modelled from the spec: an entry is eligible for allocation when it is
"currently unallocated" (not marked allocated) and "matched by every present
non-interval constraint field", usage category and locality group
(section 4.5). -/
def eligible (constraint : Option pmem_region) (r : pmem_region) : Bool :=
  !(r.allocated_is_set && r.allocated) &&
  match constraint with
  | none => true
  | some c =>
    (!c.type_is_set || (r.type_is_set && decide (r.type = c.type))) &&
    (!c.lgroup_is_set || (r.lgroup_is_set && decide (r.lgroup = c.lgroup)))

/-- Modelled from the spec: the maximal runs of adjacent eligible entries, in
ascending order, each as its extent `(lo, hi)`; `cur` is the run being
extended (section 4.5). -/
def free_runs (constraint : Option pmem_region) :
    Option (Nat × Nat) → pmem_table → List (Nat × Nat)
  | none, [] => []
  | some run, [] => [run]
  | none, r :: rs =>
    if eligible constraint r then free_runs constraint (some (r.start, r.«end»)) rs
    else free_runs constraint none rs
  | some (lo, hi), r :: rs =>
    if eligible constraint r then
      if r.start = hi then free_runs constraint (some (lo, r.«end»)) rs
      else (lo, hi) :: free_runs constraint (some (r.start, r.«end»)) rs
    else (lo, hi) :: free_runs constraint none rs

/-- Modelled from the spec: the least multiple of `alignment` that is not below
`a` (section 4.5). -/
def align_up (a alignment : Nat) : Nat := (a + alignment - 1) / alignment * alignment

/-- Modelled from the spec: "the first address `a` within that run such that `a`
is a multiple of `alignment` and `a + size` fits within the run and within the
constraint interval" (section 4.5). -/
def fit_in_run (size alignment : Nat) (constraint : Option pmem_region)
    (run : Nat × Nat) : Option Nat :=
  let lo := match constraint with
    | none => run.1
    | some c => max run.1 c.start
  let hi := match constraint with
    | none => run.2
    | some c => min run.2 c.«end»
  let a := align_up lo alignment
  if a + size ≤ hi then some a else none

/-- Modelled from the spec: first fit, "the first such run/address found (lowest
address)" (section 4.5). -/
def first_fit (t : pmem_table) (size alignment : Nat) (constraint : Option pmem_region) :
    Option Nat :=
  (free_runs constraint none t).findSome? (fit_in_run size alignment constraint)

/-- Modelled from the spec: `alignment` is a power of two (section 4.5). -/
def is_pow2 (n : Nat) : Bool := (List.range 64).any fun k => n = 2 ^ k

/-- Modelled from the spec: the request `allocate` passes to `update`: the
interval `[a, a + size)` marked allocated, every other field absent so that the
attributes are inherited from the underlying regions (section 4.5). -/
def alloc_request (a size : Nat) : pmem_region :=
  { start := a, «end» := a + size,
    type_is_set := false, type := .PMEM_TYPE_BOOTMEM,
    lgroup_is_set := false, lgroup := 0,
    allocated_is_set := true, allocated := true,
    name_is_set := false, name := empty_name }

/-- Modelled from the spec: `allocate` of section 4.5.  `size = 0` or an
alignment that is not a power of two is an `InvalidRange` (alignment 0 stands
for 1); a constraint with `start >= end` is `NotFound`; no fitting run is
`OutOfMemory`; otherwise an `update` marks `[a, a + size)` allocated and the
descriptor of that interval is returned. -/
def pmem_alloc (t : pmem_table) (size alignment : Nat) (constraint : Option pmem_region) :
    Except pmem_err (pmem_table × pmem_region) :=
  let alignment := if alignment = 0 then 1 else alignment
  if size = 0 ∨ ¬ is_pow2 alignment then .error .InvalidRange
  else if (match constraint with
      | none => false
      | some c => decide (¬ c.start < c.«end»)) then .error .NotFound
  else
    match first_fit t size alignment constraint with
    | none => .error .OutOfMemory
    | some a =>
      match pmem_update t (alloc_request a size) with
      | .ok t' => .ok (t', alloc_request a size)
      | .error e => .error e

/-- A call of one of the three mutating operations. -/
inductive pmem_call where
  | add (rgn : pmem_region)
  | update (update : pmem_region)
  | alloc (size alignment : Nat) (constraint : Option pmem_region)

/-- The table after one call, if the call succeeds. -/
def pmem_step (t : pmem_table) : pmem_call → Option pmem_table
  | .add rgn =>
    match pmem_add t rgn with
    | .ok t' => some t'
    | .error _ => none
  | .update update =>
    match pmem_update t update with
    | .ok t' => some t'
    | .error _ => none
  | .alloc size alignment constraint =>
    match pmem_alloc t size alignment constraint with
    | .ok (t', _) => some t'
    | .error _ => none

/-- The table after a sequence of calls, oldest first, all of which succeed;
`none` as soon as one fails. -/
def pmem_run (t : pmem_table) : List pmem_call → Option pmem_table
  | [] => some t
  | c :: cs =>
    match pmem_step t c with
    | some t' => pmem_run t' cs
    | none => none

/-- A descriptor over `[s, e)` of type `PMEM_TYPE_KMEM`, its other fields
absent. -/
def kmem_rgn (s e : Nat) : pmem_region :=
  { rgn_unset with start := s, «end» := e, type_is_set := true, type := .PMEM_TYPE_KMEM }

/-- A request over `[s, e)` that sets `allocated` to `b` and nothing else. -/
def allocated_rgn (s e : Nat) (b : Bool) : pmem_region :=
  { rgn_unset with start := s, «end» := e, allocated_is_set := true, allocated := b }

/-- The interval of a stored region is non-empty: `start < end`. -/
def rgn_valid (r : pmem_region) : Prop := r.start < r.«end»

/-- Every stored region has `start < end`. -/
def table_valid (t : pmem_table) : Prop := ∀ r ∈ t, rgn_valid r

/-- Relation between an entry and its successor in a table that has just been
edited over the span `[lo, hi]`: both non-empty, the first ends no later than
the second starts, and if they meet and are attribute-equal the meeting point
lies in the span. -/
def rel_span (lo hi : Nat) (a b : pmem_region) : Prop :=
  rgn_valid a ∧ rgn_valid b ∧ a.«end» ≤ b.start ∧
  (a.«end» = b.start → attrs a = attrs b → lo ≤ a.«end» ∧ a.«end» ≤ hi)

/-- Relation between an entry and its successor in a table at rest: both
non-empty, the first ends no later than the second starts, and if they meet
they are not attribute-equal. -/
def rel_inv (a b : pmem_region) : Prop :=
  rgn_valid a ∧ rgn_valid b ∧ a.«end» ≤ b.start ∧
  (a.«end» = b.start → attrs a ≠ attrs b)

/-- The region table invariant of section 3. -/
def table_inv (t : pmem_table) : Prop := table_valid t ∧ List.Chain' rel_inv t

/-- The table after `add([0,1000), kernel-managed)` and one
`allocate(size=64, alignment=64, constraint=[0,1000))`. -/
def table_after_alloc : pmem_table :=
  [{ kmem_rgn 0 64 with allocated_is_set := true, allocated := true }, kmem_rgn 64 1000]

/-- The calls that lead to `table_after_alloc`. -/
def calls_add_alloc : List pmem_call :=
  [.add (kmem_rgn 0 1000), .alloc 64 64 (some (kmem_rgn 0 1000))]

/-! ## Mailbox lemmas -/

theorem tmod_succ (w s : Int) (h0 : 0 ≤ w) (h1 : w < s) :
    Int.tmod (w + 1) s = if w + 1 = s then 0 else w + 1 := by
  rw [Int.tmod_eq_emod (by omega) (by omega)]
  split
  · next h => rw [h]; exact Int.emod_self
  · next h => exact Int.emod_eq_of_lt (by omega) (by omega)

theorem ring_count (r w s : Int) (hr0 : 0 ≤ r) (hr : r < s) (hw0 : 0 ≤ w) (hw : w < s) :
    (w - r) % s = if r ≤ w then w - r else w - r + s := by
  split
  · exact Int.emod_eq_of_lt (by omega) (by omega)
  · have : (w - r) % s = (w - r + s) % s := by simp
    rw [this]
    exact Int.emod_eq_of_lt (by omega) (by omega)

theorem post_pass_try (mbox : sys_mbox) (msg : Nat) :
    _sys_mbox_post_pass mbox msg true =
      if Int.tmod (mbox.write + 1) mbox.size ≠ mbox.read then
        ({ mbox with
          msgs := Function.update mbox.msgs mbox.write msg
          write := Int.tmod (mbox.write + 1) mbox.size }, some ERR_OK)
      else (mbox, some ERR_MEM) := by
  unfold _sys_mbox_post_pass
  simp

theorem post_try_fuel (fuel : Nat) (mbox : sys_mbox) (msg : Nat) :
    _sys_mbox_post (fuel + 1) mbox msg true =
      if Int.tmod (mbox.write + 1) mbox.size ≠ mbox.read then
        some ({ mbox with
          msgs := Function.update mbox.msgs mbox.write msg
          write := Int.tmod (mbox.write + 1) mbox.size }, ERR_OK)
      else some (mbox, ERR_MEM) := by
  unfold _sys_mbox_post
  rw [post_pass_try]
  by_cases h : Int.tmod (mbox.write + 1) mbox.size = mbox.read <;> simp [h]

theorem trypost_eq (mbox : sys_mbox) (msg : Nat) :
    sys_mbox_trypost mbox msg =
      if Int.tmod (mbox.write + 1) mbox.size ≠ mbox.read then
        some ({ mbox with
          msgs := Function.update mbox.msgs mbox.write msg
          write := Int.tmod (mbox.write + 1) mbox.size }, ERR_OK)
      else some (mbox, ERR_MEM) :=
  post_try_fuel 0 mbox msg

theorem wf_new (mem : Int → Nat) (size : Int) : mbox_wf (sys_mbox_new mem size) := by
  unfold mbox_wf sys_mbox_new
  simp only
  split <;> omega

theorem size_step (mbox : sys_mbox) (c : mbox_call) :
    (mbox_step mbox c).size = mbox.size := by
  cases c with
  | trypost msg =>
    simp only [mbox_step, trypost_eq]
    by_cases h : Int.tmod (mbox.write + 1) mbox.size = mbox.read <;> simp [h]
  | tryfetch =>
    simp only [mbox_step, sys_arch_mbox_tryfetch]
    split <;> rfl

theorem wf_step (mbox : sys_mbox) (c : mbox_call) (h : mbox_wf mbox) :
    mbox_wf (mbox_step mbox c) := by
  obtain ⟨h1, h2, h3, h4⟩ := h
  cases c with
  | trypost msg =>
    simp only [mbox_step, trypost_eq]
    by_cases h : Int.tmod (mbox.write + 1) mbox.size = mbox.read
    · simp only [h, ne_eq, not_true_eq_false, if_false]
      exact ⟨h1, h2, h3, h4⟩
    · simp only [h, ne_eq, not_false_eq_true, if_true]
      refine ⟨h1, h2, ?_, ?_⟩ <;> simp only [tmod_succ _ _ h3 h4] <;> split <;> omega
  | tryfetch =>
    simp only [mbox_step, sys_arch_mbox_tryfetch]
    split
    · exact ⟨h1, h2, h3, h4⟩
    · refine ⟨?_, ?_, h3, h4⟩ <;> simp only [tmod_succ _ _ h1 h2] <;> split <;> omega

theorem size_run (cs : List mbox_call) (mbox : sys_mbox) :
    (mbox_run mbox cs).size = mbox.size := by
  induction cs generalizing mbox with
  | nil => rfl
  | cons c cs ih => simp only [mbox_run]; rw [ih, size_step]

theorem wf_run (cs : List mbox_call) (mbox : sys_mbox) (h : mbox_wf mbox) :
    mbox_wf (mbox_run mbox cs) := by
  induction cs generalizing mbox with
  | nil => exact h
  | cons c cs ih => exact ih _ (wf_step mbox c h)

theorem slots_congr (m m' : sys_mbox) (hs : m'.size = m.size) (hm : m'.msgs = m.msgs)
    (n : Nat) (r : Int) : mbox_slots m' r n = mbox_slots m r n := by
  induction n generalizing r with
  | zero => rfl
  | succ n ih => simp only [mbox_slots, hs, hm, ih]

theorem slots_put (m m' : sys_mbox) (x : Nat) (hs : m'.size = m.size)
    (hm : m'.msgs = Function.update m.msgs m.write x)
    (hw0 : 0 ≤ m.write) (hw : m.write < m.size) (n : Nat) (r : Int)
    (hr0 : 0 ≤ r) (hr : r < m.size) (hn : (m.write - r) % m.size = (n : Int)) :
    mbox_slots m' r (n + 1) = mbox_slots m r n ++ [x] := by
  induction n generalizing r with
  | zero =>
    rw [ring_count r m.write m.size hr0 hr hw0 hw] at hn
    have hrw : r = m.write := by split at hn <;> omega
    simp [mbox_slots, hm, hrw]
  | succ n ih =>
    rw [ring_count r m.write m.size hr0 hr hw0 hw] at hn
    have hne : r ≠ m.write := by
      intro h; rw [h] at hn; simp at hn; omega
    have hstep := tmod_succ r m.size hr0 hr
    have hr0' : 0 ≤ Int.tmod (r + 1) m.size := by rw [hstep]; split <;> omega
    have hr' : Int.tmod (r + 1) m.size < m.size := by rw [hstep]; split <;> omega
    have hn' : (m.write - Int.tmod (r + 1) m.size) % m.size = (n : Int) := by
      rw [ring_count _ m.write m.size hr0' hr' hw0 hw, hstep]
      push_cast at hn
      split_ifs at hn ⊢ <;> omega
    have := ih (Int.tmod (r + 1) m.size) hr0' hr' hn'
    rw [mbox_slots, hs, this, hm, Function.update_noteq hne]
    rfl

theorem pending_post (m : sys_mbox) (x : Nat) (h : mbox_wf m)
    (hfull : Int.tmod (m.write + 1) m.size ≠ m.read) :
    mbox_pending { m with
      msgs := Function.update m.msgs m.write x
      write := Int.tmod (m.write + 1) m.size } = mbox_pending m ++ [x] := by
  obtain ⟨h1, h2, h3, h4⟩ := h
  have hstep := tmod_succ m.write m.size h3 h4
  have hw0' : 0 ≤ Int.tmod (m.write + 1) m.size := by rw [hstep]; split <;> omega
  have hw' : Int.tmod (m.write + 1) m.size < m.size := by rw [hstep]; split <;> omega
  have hc := ring_count m.read m.write m.size h1 h2 h3 h4
  have hc' := ring_count m.read (Int.tmod (m.write + 1) m.size) m.size h1 h2 hw0' hw'
  have hcnt : ((Int.tmod (m.write + 1) m.size - m.read) % m.size).toNat =
      ((m.write - m.read) % m.size).toNat + 1 := by
    rw [hc', hc]
    rw [hstep] at hfull ⊢
    split_ifs at hfull ⊢ <;> omega
  unfold mbox_pending
  simp only
  rw [hcnt]
  refine slots_put m { m with
    msgs := Function.update m.msgs m.write x
    write := Int.tmod (m.write + 1) m.size } x rfl rfl h3 h4 _ m.read h1 h2 ?_
  rw [hc]
  split <;> omega

theorem pending_fetch (m : sys_mbox) (h : mbox_wf m) (hne : m.read ≠ m.write) :
    mbox_pending m =
      m.msgs m.read :: mbox_pending { m with read := Int.tmod (m.read + 1) m.size } := by
  obtain ⟨h1, h2, h3, h4⟩ := h
  have hstep := tmod_succ m.read m.size h1 h2
  have hr0' : 0 ≤ Int.tmod (m.read + 1) m.size := by rw [hstep]; split <;> omega
  have hr' : Int.tmod (m.read + 1) m.size < m.size := by rw [hstep]; split <;> omega
  have hc := ring_count m.read m.write m.size h1 h2 h3 h4
  have hc' := ring_count (Int.tmod (m.read + 1) m.size) m.write m.size hr0' hr' h3 h4
  have hcnt : ((m.write - m.read) % m.size).toNat =
      ((m.write - Int.tmod (m.read + 1) m.size) % m.size).toNat + 1 := by
    rw [hc', hc, hstep]
    split_ifs <;> omega
  unfold mbox_pending
  simp only
  rw [hcnt, mbox_slots]
  congr 1
  exact (slots_congr m { m with read := Int.tmod (m.read + 1) m.size } rfl rfl _ _).symm

theorem pending_empty_iff (m : sys_mbox) (h : mbox_wf m) :
    mbox_pending m = [] ↔ m.read = m.write := by
  obtain ⟨h1, h2, h3, h4⟩ := h
  have hc := ring_count m.read m.write m.size h1 h2 h3 h4
  constructor
  · intro hp
    by_contra hne
    rw [pending_fetch m ⟨h1, h2, h3, h4⟩ hne] at hp
    exact List.cons_ne_nil _ _ hp
  · intro heq
    unfold mbox_pending
    rw [heq]
    simp [mbox_slots]

theorem pending_length (m : sys_mbox) :
    (mbox_pending m).length = ((m.write - m.read) % m.size).toNat := by
  unfold mbox_pending
  generalize ((m.write - m.read) % m.size).toNat = n
  generalize m.read = r
  induction n generalizing r with
  | zero => rfl
  | succ n ih => simp [mbox_slots, ih]

/-- The ring holds exactly the messages posted and not yet fetched. -/
theorem fifo_invariant (cs : List mbox_call) (m : sys_mbox) (h : mbox_wf m) :
    mbox_pending m ++ mbox_posted m cs =
      mbox_fetched m cs ++ mbox_pending (mbox_run m cs) := by
  induction cs generalizing m with
  | nil => simp [mbox_posted, mbox_fetched, mbox_run]
  | cons c cs ih =>
    have ih' := ih (mbox_step m c) (wf_step m c h)
    cases c with
    | trypost msg =>
      simp only [mbox_posted, mbox_fetched, mbox_run]
      rw [← ih']
      by_cases hf : Int.tmod (m.write + 1) m.size = m.read
      · simp [mbox_step, trypost_eq, hf, ERR_OK, ERR_MEM]
      · have hp := pending_post m msg h hf
        simp [mbox_step, trypost_eq, hf, hp]
    | tryfetch =>
      simp only [mbox_posted, mbox_fetched, mbox_run]
      by_cases he : m.read = m.write
      · have hres : sys_arch_mbox_tryfetch m 0 = (m, 0, SYS_MBOX_EMPTY) := by
          simp [sys_arch_mbox_tryfetch, he]
        have hstep : mbox_step m .tryfetch = m := by simp [mbox_step, hres]
        rw [hstep] at ih' ⊢
        simpa [hres, SYS_MBOX_EMPTY, SYS_ARCH_TIMEOUT] using ih'
      · have hp := pending_fetch m h he
        have hstep : mbox_step m .tryfetch =
            { m with read := Int.tmod (m.read + 1) m.size } := by
          simp [mbox_step, sys_arch_mbox_tryfetch, he]
        rw [hstep] at ih' ⊢
        rw [hp, List.cons_append, ih']
        simp [sys_arch_mbox_tryfetch, he]

theorem pending_new (mem : Int → Nat) (size : Int) :
    mbox_pending (sys_mbox_new mem size) = [] :=
  (pending_empty_iff _ (wf_new mem size)).2 rfl

theorem posted_eq (mem : Int → Nat) (size : Int) (cs : List mbox_call) :
    mbox_posted (sys_mbox_new mem size) cs =
      mbox_fetched (sys_mbox_new mem size) cs ++
        mbox_pending (mbox_run (sys_mbox_new mem size) cs) := by
  have h := fifo_invariant cs (sys_mbox_new mem size) (wf_new mem size)
  rwa [pending_new, List.nil_append] at h

/-- C4: the mailbox is a FIFO queue.  After any sequence of `sys_mbox_trypost`
and `sys_arch_mbox_tryfetch` calls on a mailbox made by `sys_mbox_new`, the
fetched messages are a prefix of the successfully posted ones; a further
`sys_arch_mbox_tryfetch` returns `SYS_MBOX_EMPTY`, leaving the mailbox and
`*msg` as they were, exactly when everything posted has been fetched, which is
exactly when `read == write`; otherwise it returns 0, advances `read` and
stores in `*msg` the oldest posted message not yet fetched. -/
theorem mbox_fifo_order (mem : Int → Nat) (size : Int) (cs : List mbox_call) (out : Nat) :
    mbox_fetched (sys_mbox_new mem size) cs <+: mbox_posted (sys_mbox_new mem size) cs ∧
    (mbox_fetched (sys_mbox_new mem size) cs = mbox_posted (sys_mbox_new mem size) cs ↔
      (mbox_run (sys_mbox_new mem size) cs).read =
        (mbox_run (sys_mbox_new mem size) cs).write) ∧
    ((sys_arch_mbox_tryfetch (mbox_run (sys_mbox_new mem size) cs) out).2.2 = SYS_MBOX_EMPTY ↔
      mbox_fetched (sys_mbox_new mem size) cs = mbox_posted (sys_mbox_new mem size) cs) ∧
    (mbox_fetched (sys_mbox_new mem size) cs = mbox_posted (sys_mbox_new mem size) cs →
      sys_arch_mbox_tryfetch (mbox_run (sys_mbox_new mem size) cs) out =
        (mbox_run (sys_mbox_new mem size) cs, out, SYS_MBOX_EMPTY)) ∧
    (mbox_fetched (sys_mbox_new mem size) cs ≠ mbox_posted (sys_mbox_new mem size) cs →
      ∃ x, (mbox_posted (sys_mbox_new mem size) cs).get?
            (mbox_fetched (sys_mbox_new mem size) cs).length = some x ∧
        sys_arch_mbox_tryfetch (mbox_run (sys_mbox_new mem size) cs) out =
          ({ mbox_run (sys_mbox_new mem size) cs with
              read := Int.tmod ((mbox_run (sys_mbox_new mem size) cs).read + 1)
                (mbox_run (sys_mbox_new mem size) cs).size }, x, 0)) := by
  have hP := posted_eq mem size cs
  have hwf := wf_run cs _ (wf_new mem size)
  generalize mbox_run (sys_mbox_new mem size) cs = m at hP hwf
  generalize mbox_posted (sys_mbox_new mem size) cs = P at hP
  generalize mbox_fetched (sys_mbox_new mem size) cs = F at hP
  have hiff : F = P ↔ m.read = m.write := by
    rw [← pending_empty_iff m hwf, hP]
    constructor
    · intro h
      have := congrArg List.length h
      simpa using this
    · intro h; simp [h]
  refine ⟨⟨_, hP.symm⟩, hiff, ?_, ?_, ?_⟩
  · rw [hiff]
    unfold sys_arch_mbox_tryfetch
    by_cases he : m.read = m.write <;> simp [he, SYS_MBOX_EMPTY, SYS_ARCH_TIMEOUT]
  · intro h
    simp [sys_arch_mbox_tryfetch, hiff.1 h]
  · intro h
    have he : m.read ≠ m.write := fun e => h (hiff.2 e)
    refine ⟨m.msgs m.read, ?_, ?_⟩
    · rw [hP, pending_fetch m hwf he, List.get?_eq_getElem?,
        List.getElem?_append_right (Nat.le_refl _)]
      simp
    · simp [sys_arch_mbox_tryfetch, he]

/-- C5: `sys_mbox_trypost` fails iff the mailbox is full and is atomic on
failure.  With `0 <= read, write < size` the call returns (whatever fuel the
loop of `_sys_mbox_post` is given), and it returns `ERR_MEM` exactly when
`(write + 1) mod size == read`, the mailbox then being unchanged; otherwise it
returns `ERR_OK`, stores `msg` in `msgs[write]`, sets `write` to
`(write + 1) mod size` and leaves `read`, `size` and every other slot
unchanged. -/
theorem trypost_full_atomic (mbox : sys_mbox) (msg : Nat) (h : mbox_wf mbox) :
    ∃ m e, sys_mbox_trypost mbox msg = some (m, e) ∧
      (∀ fuel, _sys_mbox_post (fuel + 1) mbox msg true = some (m, e)) ∧
      (e = ERR_MEM ↔ (mbox.write + 1) % mbox.size = mbox.read) ∧
      ((mbox.write + 1) % mbox.size = mbox.read → m = mbox) ∧
      ((mbox.write + 1) % mbox.size ≠ mbox.read →
        e = ERR_OK ∧ m.msgs mbox.write = msg ∧
        m.write = (mbox.write + 1) % mbox.size ∧
        m.read = mbox.read ∧ m.size = mbox.size ∧
        ∀ i, i ≠ mbox.write → m.msgs i = mbox.msgs i) := by
  obtain ⟨h1, h2, h3, h4⟩ := h
  have hmod : Int.tmod (mbox.write + 1) mbox.size = (mbox.write + 1) % mbox.size :=
    Int.tmod_eq_emod (by omega) (by omega)
  by_cases hf : (mbox.write + 1) % mbox.size = mbox.read
  · refine ⟨mbox, ERR_MEM, ?_, ?_, ?_, ?_, ?_⟩
    · simp [trypost_eq, hmod, hf]
    · intro fuel; simp [post_try_fuel, hmod, hf]
    · simp [hf]
    · intro _; rfl
    · intro hn; exact absurd hf hn
  · refine ⟨{ mbox with
        msgs := Function.update mbox.msgs mbox.write msg
        write := Int.tmod (mbox.write + 1) mbox.size }, ERR_OK, ?_, ?_, ?_, ?_, ?_⟩
    · simp [trypost_eq, hmod, hf]
    · intro fuel; simp [post_try_fuel, hmod, hf]
    · simp [hf, ERR_OK, ERR_MEM]
    · intro hn; exact absurd hn hf
    · intro _
      refine ⟨rfl, by simp, hmod, rfl, rfl, ?_⟩
      intro i hi
      simp [Function.update_noteq hi]

/-- Witness for C5: a four-slot mailbox holding one message accepts 22. -/
theorem trypost_full_atomic_witness :
    mbox_wf mbox_example ∧
    ∃ m e, sys_mbox_trypost mbox_example 22 = some (m, e) ∧
      (∀ fuel, _sys_mbox_post (fuel + 1) mbox_example 22 true = some (m, e)) ∧
      (e = ERR_MEM ↔ (mbox_example.write + 1) % mbox_example.size = mbox_example.read) ∧
      ((mbox_example.write + 1) % mbox_example.size = mbox_example.read → m = mbox_example) ∧
      ((mbox_example.write + 1) % mbox_example.size ≠ mbox_example.read →
        e = ERR_OK ∧ m.msgs mbox_example.write = 22 ∧
        m.write = (mbox_example.write + 1) % mbox_example.size ∧
        m.read = mbox_example.read ∧ m.size = mbox_example.size ∧
        ∀ i, i ≠ mbox_example.write → m.msgs i = mbox_example.msgs i) :=
  ⟨by unfold mbox_wf mbox_example; decide,
   trypost_full_atomic mbox_example 22 (by unfold mbox_wf mbox_example; decide)⟩

/-- C6: mailbox boundedness.  After any sequence of `sys_mbox_trypost` and
`sys_arch_mbox_tryfetch` calls on a mailbox made by `sys_mbox_new(size)`, the
`size` member still is the one chosen at creation and is positive,
`0 <= read < size` and `0 <= write < size`, and the number of pending messages
(posted with `ERR_OK` and not yet fetched) is `(write - read) mod size`, which
is at most `size - 1`. -/
theorem mbox_bounded (mem : Int → Nat) (size : Int) (cs : List mbox_call) :
    (mbox_run (sys_mbox_new mem size) cs).size = (if size ≤ 0 then 8 else size) ∧
    0 < (mbox_run (sys_mbox_new mem size) cs).size ∧
    0 ≤ (mbox_run (sys_mbox_new mem size) cs).read ∧
    (mbox_run (sys_mbox_new mem size) cs).read < (mbox_run (sys_mbox_new mem size) cs).size ∧
    0 ≤ (mbox_run (sys_mbox_new mem size) cs).write ∧
    (mbox_run (sys_mbox_new mem size) cs).write < (mbox_run (sys_mbox_new mem size) cs).size ∧
    ((mbox_posted (sys_mbox_new mem size) cs).length : Int) -
        (mbox_fetched (sys_mbox_new mem size) cs).length =
      ((mbox_run (sys_mbox_new mem size) cs).write -
        (mbox_run (sys_mbox_new mem size) cs).read) %
          (mbox_run (sys_mbox_new mem size) cs).size ∧
    ((mbox_run (sys_mbox_new mem size) cs).write -
        (mbox_run (sys_mbox_new mem size) cs).read) %
          (mbox_run (sys_mbox_new mem size) cs).size ≤
      (mbox_run (sys_mbox_new mem size) cs).size - 1 := by
  have hP := posted_eq mem size cs
  have hwf := wf_run cs _ (wf_new mem size)
  have hsz := size_run cs (sys_mbox_new mem size)
  have hsz0 : (sys_mbox_new mem size).size = (if size ≤ 0 then 8 else size) := rfl
  rw [hsz0] at hsz
  generalize mbox_run (sys_mbox_new mem size) cs = m at hP hwf hsz
  obtain ⟨h1, h2, h3, h4⟩ := hwf
  have hpos : 0 < m.size := by omega
  have hlt : (m.write - m.read) % m.size < m.size := Int.emod_lt_of_pos _ hpos
  have hge : 0 ≤ (m.write - m.read) % m.size := Int.emod_nonneg _ (by omega)
  refine ⟨hsz, hpos, h1, h2, h3, h4, ?_, by omega⟩
  rw [hP, List.length_append, pending_length]
  push_cast
  rw [Int.toNat_of_nonneg hge]
  omega

theorem trypost_results_from (msg : Nat → Nat) (k i : Nat) (m : sys_mbox)
    (hr : m.read = 0) (hw0 : 0 ≤ m.write) (hw : m.write < m.size) :
    trypost_results msg k i m =
      List.replicate (min k (m.size - 1 - m.write).toNat) (some ERR_OK) ++
        List.replicate (k - (m.size - 1 - m.write).toNat) (some ERR_MEM) := by
  induction k generalizing i m with
  | zero => simp [trypost_results]
  | succ k ih =>
    have hstep := tmod_succ m.write m.size hw0 hw
    by_cases hlast : m.write + 1 = m.size
    · have hfull : Int.tmod (m.write + 1) m.size = m.read := by
        rw [hstep, hr]; simp [hlast]
      have hc : (m.size - 1 - m.write).toNat = 0 := by omega
      simp only [trypost_results, trypost_eq, hfull, ne_eq, not_true_eq_false, if_false]
      rw [ih (i + 1) m hr hw0 hw, hc]
      simp [List.replicate_succ]
    · have hnext : Int.tmod (m.write + 1) m.size = m.write + 1 := by
        rw [hstep]; simp [hlast]
      have hnf : Int.tmod (m.write + 1) m.size ≠ m.read := by
        rw [hnext, hr]; omega
      simp only [trypost_results, trypost_eq, hnf, ne_eq, not_false_eq_true, if_true]
      rw [hnext]
      rw [ih (i + 1) { m with
          msgs := Function.update m.msgs m.write (msg i)
          write := m.write + 1 } hr (by show 0 ≤ m.write + 1; omega)
        (by show m.write + 1 < m.size; omega)]
      show some ERR_OK ::
          (List.replicate (min k (m.size - 1 - (m.write + 1)).toNat) (some ERR_OK) ++
            List.replicate (k - (m.size - 1 - (m.write + 1)).toNat) (some ERR_MEM)) = _
      obtain ⟨c, hc⟩ : ∃ c : Nat, (m.size - 1 - m.write).toNat = c + 1 :=
        ⟨(m.size - 1 - m.write).toNat - 1, by omega⟩
      have hc' : (m.size - 1 - (m.write + 1)).toNat = c := by omega
      rw [hc, hc', Nat.add_min_add_right, List.replicate_succ, Nat.add_sub_add_right]
      rfl

/-- C10: exact capacity of a new mailbox.  `sys_mbox_new(size)` returns an
empty mailbox, `read = write = 0`, whose `size` member is 8 when `size <= 0`
and `size` otherwise; of `k` consecutive `sys_mbox_trypost` calls on it the
first `size - 1` return `ERR_OK` and all later ones `ERR_MEM`.  So the n-th
call on a mailbox of effective size n is the first to fail, the default
mailbox accepts 7 messages and a mailbox of size 1 accepts none. -/
theorem mbox_new_capacity (mem : Int → Nat) (size : Int) (msg : Nat → Nat) (k : Nat) :
    (sys_mbox_new mem size).read = 0 ∧ (sys_mbox_new mem size).write = 0 ∧
    (sys_mbox_new mem size).size = (if size ≤ 0 then 8 else size) ∧
    trypost_results msg k 0 (sys_mbox_new mem size) =
      List.replicate (min k ((sys_mbox_new mem size).size.toNat - 1)) (some ERR_OK) ++
        List.replicate (k - ((sys_mbox_new mem size).size.toNat - 1)) (some ERR_MEM) ∧
    trypost_results msg (sys_mbox_new mem size).size.toNat 0 (sys_mbox_new mem size) =
      List.replicate ((sys_mbox_new mem size).size.toNat - 1) (some ERR_OK) ++
        [some ERR_MEM] ∧
    trypost_results msg 8 0 (sys_mbox_new mem 0) =
      List.replicate 7 (some ERR_OK) ++ [some ERR_MEM] ∧
    trypost_results msg k 0 (sys_mbox_new mem 1) = List.replicate k (some ERR_MEM) := by
  have hwf := wf_new mem size
  obtain ⟨_, h2, h3, h4⟩ := hwf
  have hgen : ∀ (s : Int) (j : Nat), trypost_results msg j 0 (sys_mbox_new mem s) =
      List.replicate (min j ((sys_mbox_new mem s).size.toNat - 1)) (some ERR_OK) ++
        List.replicate (j - ((sys_mbox_new mem s).size.toNat - 1)) (some ERR_MEM) := by
    intro s j
    obtain ⟨_, _, g3, g4⟩ := wf_new mem s
    rw [trypost_results_from msg j 0 _ rfl g3 g4]
    have hw : (sys_mbox_new mem s).write = 0 := rfl
    have : ((sys_mbox_new mem s).size - 1 - (sys_mbox_new mem s).write).toNat =
        (sys_mbox_new mem s).size.toNat - 1 := by
      rw [hw]; omega
    rw [this]
  refine ⟨rfl, rfl, rfl, hgen size k, ?_, ?_, ?_⟩
  · rw [hgen size]
    have hw : (sys_mbox_new mem size).write = 0 := rfl
    have hpos : 0 < (sys_mbox_new mem size).size.toNat := by omega
    have h1 : min (sys_mbox_new mem size).size.toNat ((sys_mbox_new mem size).size.toNat - 1) =
        (sys_mbox_new mem size).size.toNat - 1 := by omega
    have h2 : (sys_mbox_new mem size).size.toNat - ((sys_mbox_new mem size).size.toNat - 1) = 1 := by
      omega
    rw [h1, h2]
    rfl
  · rw [hgen 0 8]
    rfl
  · rw [hgen 1 k]
    have : (sys_mbox_new mem 1).size.toNat - 1 = 0 := rfl
    rw [this]
    simp

/-! ## Semaphore lemmas -/

theorem wrap_int_id (x : Int) (h0 : -(2 ^ 31) ≤ x) (h1 : x ≤ INT_MAX) : wrap_int x = x := by
  unfold wrap_int
  unfold INT_MAX at h1
  omega

theorem timeout_ticks_exact (timeout : Nat) (ht : timeout < 2 ^ 32) :
    timeout_ticks timeout = timeout * 2400000 := by
  unfold timeout_ticks cpu_hz
  rw [Nat.mod_eq_of_lt ht]
  apply Nat.mod_eq_of_lt
  have : timeout * 2400000 < 2 ^ 32 * 2400000 := by omega
  exact lt_trans this (by norm_num)

theorem sem_wait_pass_cases (sem : Int) (timeout d : Nat) :
    sem_wait_pass sem timeout d =
      if timeout % 2 ^ 32 ≠ 0 ∧ d > timeout_ticks timeout then (sem, .timed_out)
      else if sem = 0 then (sem, .again)
      else (wrap_int (sem - 1), .acquired ((d / cpu_hz) % 2 ^ 32)) := rfl

theorem signal_step (s : Int) (h0 : 0 ≤ s) (h1 : s < INT_MAX) : sys_sem_signal s = s + 1 :=
  wrap_int_id _ (by omega) (by omega)

theorem wait_step (s : Int) (timeout d : Nat) (h0 : 0 ≤ s) (h1 : s ≤ INT_MAX) :
    (sem_acquires s (.wait_pass timeout d) = true ∧ s ≠ 0 ∧
      (sem_wait_pass s timeout d).1 = s - 1) ∨
    (sem_acquires s (.wait_pass timeout d) = false ∧
      (sem_wait_pass s timeout d).1 = s) := by
  by_cases hto : timeout % 2 ^ 32 ≠ 0 ∧ d > timeout_ticks timeout
  · have hp : sem_wait_pass s timeout d = (s, .timed_out) := by
      rw [sem_wait_pass_cases, if_pos hto]
    right
    simp [sem_acquires, hp]
  · by_cases hz : s = 0
    · have hp : sem_wait_pass s timeout d = (s, .again) := by
        rw [sem_wait_pass_cases, if_neg hto, if_pos hz]
      right
      simp [sem_acquires, hp]
    · have hp : sem_wait_pass s timeout d =
          (wrap_int (s - 1), .acquired ((d / cpu_hz) % 2 ^ 32)) := by
        rw [sem_wait_pass_cases, if_neg hto, if_neg hz]
      left
      have hw : wrap_int (s - 1) = s - 1 := wrap_int_id _ (by omega) (by omega)
      simp [sem_acquires, hp, hw, hz]

theorem sem_run_count (evs : List sem_event) (s : Int) (h0 : 0 ≤ s) (h1 : s ≤ INT_MAX)
    (hr : sem_in_range s evs = true) :
    sem_run s evs = s + sem_signals evs - sem_acquisitions s evs ∧
    0 ≤ sem_run s evs ∧ sem_run s evs ≤ INT_MAX := by
  induction evs generalizing s with
  | nil => simp [sem_run, sem_signals, sem_acquisitions, h0, h1]
  | cons e es ih =>
    cases e with
    | signal =>
      simp only [sem_in_range, Bool.and_eq_true, decide_eq_true_eq] at hr
      have hs := signal_step s h0 hr.1
      obtain ⟨hrun, hr0, hrm⟩ := ih (sys_sem_signal s) (by omega) (by omega) hr.2
      refine ⟨?_, hr0, hrm⟩
      simp only [sem_run, sem_step, sem_signals, sem_acquisitions, sem_acquires]
      rw [hrun, hs]
      push_cast
      simp
      omega
    | wait_pass timeout d =>
      simp only [sem_in_range] at hr
      rcases wait_step s timeout d h0 h1 with ⟨ha, hz, hs⟩ | ⟨ha, hs⟩
      · obtain ⟨hrun, hr0, hrm⟩ := ih (sem_wait_pass s timeout d).1 (by omega) (by omega) hr
        refine ⟨?_, hr0, hrm⟩
        simp only [sem_run, sem_step, sem_signals, sem_acquisitions, ha, if_true]
        rw [hrun, hs]
        push_cast
        omega
      · obtain ⟨hrun, hr0, hrm⟩ := ih (sem_wait_pass s timeout d).1 (by omega) (by omega) hr
        refine ⟨?_, hr0, hrm⟩
        simp only [sem_run, sem_step, sem_signals, sem_acquisitions, ha]
        rw [hrun, hs]
        simp

theorem sem_wait_loop_exit (sem : Int) (timeout start_time : Nat) (tsc : List Nat)
    (s : Int) (r : poll_t) (h : sys_arch_sem_wait sem timeout start_time tsc = some (s, r)) :
    r ≠ .again ∧ ∃ pre now post, tsc = pre ++ now :: post ∧
      (∀ x ∈ pre, sem_wait_pass sem timeout (delta_ticks x start_time) = (sem, .again)) ∧
      sem_wait_pass sem timeout (delta_ticks now start_time) = (s, r) := by
  induction tsc with
  | nil => simp [sys_arch_sem_wait] at h
  | cons now tsc ih =>
    unfold sys_arch_sem_wait at h
    have hc := sem_wait_pass_cases sem timeout (delta_ticks now start_time)
    split_ifs at hc with hto hz
    · rw [hc] at h
      simp only [Option.some.injEq, Prod.mk.injEq] at h
      obtain ⟨rfl, rfl⟩ := h
      exact ⟨by simp, [], now, tsc, rfl, by simp, hc⟩
    · rw [hc] at h
      simp only at h
      obtain ⟨hne, pre, n, post, ht, hpre, hn⟩ := ih h
      refine ⟨hne, now :: pre, n, post, by simp [ht], ?_, hn⟩
      intro x hx
      rcases List.mem_cons.1 hx with rfl | hx
      · exact hc
      · exact hpre x hx
    · rw [hc] at h
      simp only [Option.some.injEq, Prod.mk.injEq] at h
      obtain ⟨rfl, rfl⟩ := h
      exact ⟨by simp, [], now, tsc, rfl, by simp, hc⟩

theorem mbox_fetch_pass_cases (mbox : sys_mbox) (out timeout d : Nat) :
    mbox_fetch_pass mbox out timeout d =
      if timeout % 2 ^ 32 ≠ 0 ∧ d > timeout_ticks timeout then (mbox, out, .timed_out)
      else if mbox.read = mbox.write then (mbox, out, .again)
      else ({ mbox with read := Int.tmod (mbox.read + 1) mbox.size }, mbox.msgs mbox.read,
        .acquired ((d / cpu_hz) % 2 ^ 32)) := by
  unfold mbox_fetch_pass sys_arch_mbox_tryfetch
  by_cases hto : timeout % 2 ^ 32 ≠ 0 ∧ d > timeout_ticks timeout
  · rw [if_pos hto, if_pos hto]
  · rw [if_neg hto, if_neg hto]
    by_cases he : mbox.read = mbox.write
    · simp [he, SYS_MBOX_EMPTY, SYS_ARCH_TIMEOUT]
    · simp [he]

theorem mbox_fetch_loop_exit (tsc : List Nat) (mbox : sys_mbox) (out timeout start_time : Nat)
    (m : sys_mbox) (o : Nat) (r : poll_t)
    (h : sys_arch_mbox_fetch mbox out timeout start_time tsc = some (m, o, r)) :
    r ≠ .again ∧ ∃ pre now post, tsc = pre ++ now :: post ∧
      (∀ x ∈ pre, mbox_fetch_pass mbox out timeout (delta_ticks x start_time) =
        (mbox, out, .again)) ∧
      mbox_fetch_pass mbox out timeout (delta_ticks now start_time) = (m, o, r) := by
  induction tsc with
  | nil => simp [sys_arch_mbox_fetch] at h
  | cons now tsc ih =>
    unfold sys_arch_mbox_fetch at h
    have hc := mbox_fetch_pass_cases mbox out timeout (delta_ticks now start_time)
    split_ifs at hc with hto hz
    · rw [hc] at h
      simp only [Option.some.injEq, Prod.mk.injEq] at h
      obtain ⟨rfl, rfl, rfl⟩ := h
      exact ⟨by simp, [], now, tsc, rfl, by simp, hc⟩
    · rw [hc] at h
      simp only at h
      obtain ⟨hne, pre, n, post, ht, hpre, hn⟩ := ih h
      refine ⟨hne, now :: pre, n, post, by simp [ht], ?_, hn⟩
      intro x hx
      rcases List.mem_cons.1 hx with rfl | hx
      · exact hc
      · exact hpre x hx
    · rw [hc] at h
      simp only [Option.some.injEq, Prod.mk.injEq] at h
      obtain ⟨rfl, rfl, rfl⟩ := h
      exact ⟨by simp, [], now, tsc, rfl, by simp, hc⟩

theorem elapsed_bound (timeout d : Nat) (ht : timeout < 2 ^ 32)
    (hd : ¬ (timeout % 2 ^ 32 ≠ 0 ∧ d > timeout_ticks timeout)) (h0 : timeout ≠ 0) :
    (d / cpu_hz) % 2 ^ 32 = d / 2400000 ∧ d / 2400000 ≤ timeout := by
  rw [timeout_ticks_exact timeout ht, Nat.mod_eq_of_lt ht] at hd
  have hle : d ≤ timeout * 2400000 := by
    by_contra hgt
    exact hd ⟨h0, by omega⟩
  have hq : d / 2400000 ≤ timeout := by
    apply Nat.div_le_of_le_mul
    rw [Nat.mul_comm]; exact hle
  refine ⟨?_, hq⟩
  unfold cpu_hz
  exact Nat.mod_eq_of_lt (by omega)

/-- C7: the semaphore is a counting semaphore.  For a semaphore made by
`sys_sem_new(count)`, `count` in 0..255, and any sequence of `sys_sem_signal`
calls and `sys_arch_sem_wait` passes along which the counter stays within the
range of `int`: the counter equals `count` + signals - acquisitions and is
never negative; a further `sys_sem_signal` adds exactly 1; a further wait pass
acquires only when the counter is non-zero, then subtracting exactly 1, and
leaves the counter alone otherwise, in particular when it is zero. -/
theorem sem_counting (count : Nat) (evs : List sem_event) (hc : count < 256)
    (hr : sem_in_range (sys_sem_new count) evs = true) :
    sys_sem_new count = (count : Int) ∧
    sem_run (sys_sem_new count) evs =
      (count : Int) + sem_signals evs - sem_acquisitions (sys_sem_new count) evs ∧
    0 ≤ sem_run (sys_sem_new count) evs ∧
    (sem_run (sys_sem_new count) evs < INT_MAX →
      sys_sem_signal (sem_run (sys_sem_new count) evs) =
        sem_run (sys_sem_new count) evs + 1) ∧
    (∀ timeout d,
      (sem_acquires (sem_run (sys_sem_new count) evs) (.wait_pass timeout d) = true →
        sem_run (sys_sem_new count) evs ≠ 0 ∧
        (sem_wait_pass (sem_run (sys_sem_new count) evs) timeout d).1 =
          sem_run (sys_sem_new count) evs - 1) ∧
      (sem_acquires (sem_run (sys_sem_new count) evs) (.wait_pass timeout d) = false →
        (sem_wait_pass (sem_run (sys_sem_new count) evs) timeout d).1 =
          sem_run (sys_sem_new count) evs) ∧
      (sem_run (sys_sem_new count) evs = 0 →
        sem_acquires (sem_run (sys_sem_new count) evs) (.wait_pass timeout d) = false)) := by
  have hnew : sys_sem_new count = (count : Int) := by
    unfold sys_sem_new
    rw [Nat.mod_eq_of_lt hc]
  have h0 : (0 : Int) ≤ sys_sem_new count := by rw [hnew]; omega
  have h1 : sys_sem_new count ≤ INT_MAX := by rw [hnew]; unfold INT_MAX; omega
  obtain ⟨hrun, hr0, hrm⟩ := sem_run_count evs (sys_sem_new count) h0 h1 hr
  refine ⟨hnew, ?_, hr0, fun hlt => signal_step _ hr0 hlt, ?_⟩
  · rw [hrun, hnew]
  · intro timeout d
    rcases wait_step (sem_run (sys_sem_new count) evs) timeout d hr0 hrm with
      ⟨ha, hz, hs⟩ | ⟨ha, hs⟩
    · refine ⟨fun _ => ⟨hz, hs⟩, ?_, fun h => absurd h hz⟩
      intro hf
      rw [ha] at hf
      cases hf
    · refine ⟨?_, fun _ => hs, fun _ => ha⟩
      intro ht
      rw [ha] at ht
      cases ht

/-- Witness for C7: one initial unit, two polls with timeout 0 and two signals. -/
theorem sem_counting_witness :
    1 < 256 ∧
    sem_in_range (sys_sem_new 1) [.wait_pass 0 5, .wait_pass 0 5, .signal, .signal] = true ∧
    sem_run (sys_sem_new 1) [.wait_pass 0 5, .wait_pass 0 5, .signal, .signal] =
      ((1 : Nat) : Int) + sem_signals [.wait_pass 0 5, .wait_pass 0 5, .signal, .signal] -
        sem_acquisitions (sys_sem_new 1) [.wait_pass 0 5, .wait_pass 0 5, .signal, .signal] ∧
    0 ≤ sem_run (sys_sem_new 1) [.wait_pass 0 5, .wait_pass 0 5, .signal, .signal] :=
  ⟨by decide, by decide,
   (sem_counting 1 [.wait_pass 0 5, .wait_pass 0 5, .signal, .signal]
      (by decide) (by decide)).2.1,
   (sem_counting 1 [.wait_pass 0 5, .wait_pass 0 5, .signal, .signal]
      (by decide) (by decide)).2.2.1⟩

/-- C8: timeout takes precedence over availability in `sys_arch_sem_wait`.  In
a pass whose elapsed tick count is `d`, if `timeout != 0` and
`d > timeout * 2400000` the pass takes the timeout branch and the call returns
`SYS_ARCH_TIMEOUT` with the counter unchanged, whatever the counter is; if
`timeout == 0` no pass takes the timeout branch, whatever `d` is: the pass
polls again with the counter unchanged or acquires, and a call that returns
has acquired. -/
theorem sem_wait_timeout_first (sem : Int) (timeout d : Nat) (ht : timeout < 2 ^ 32) :
    (timeout ≠ 0 → d > timeout * 2400000 →
      sem_wait_pass sem timeout d = (sem, .timed_out) ∧
      poll_t.retval (sem_wait_pass sem timeout d).2 = some SYS_ARCH_TIMEOUT ∧
      ∀ start_time now tsc, delta_ticks now start_time = d →
        sys_arch_sem_wait sem timeout start_time (now :: tsc) = some (sem, .timed_out)) ∧
    (timeout = 0 →
      (sem_wait_pass sem timeout d).2 ≠ .timed_out ∧
      (sem_wait_pass sem timeout d = (sem, .again) ∨
        ∃ ret, sem_wait_pass sem timeout d = (wrap_int (sem - 1), .acquired ret)) ∧
      ∀ start_time tsc s r, sys_arch_sem_wait sem timeout start_time tsc = some (s, r) →
        ∃ ret, r = .acquired ret) := by
  constructor
  · intro h0 hd
    have hto : timeout % 2 ^ 32 ≠ 0 ∧ d > timeout_ticks timeout := by
      rw [timeout_ticks_exact timeout ht, Nat.mod_eq_of_lt ht]
      exact ⟨h0, hd⟩
    have hp : sem_wait_pass sem timeout d = (sem, .timed_out) := by
      rw [sem_wait_pass_cases, if_pos hto]
    refine ⟨hp, by rw [hp]; rfl, ?_⟩
    intro start_time now tsc hnow
    unfold sys_arch_sem_wait
    rw [hnow, hp]
  · intro h0
    subst h0
    have hnot : ∀ d', ¬ ((0 : Nat) % 2 ^ 32 ≠ 0 ∧ d' > timeout_ticks 0) := by
      intro d' h; exact h.1 rfl
    have hcases : ∀ (x : Int) (d' : Nat), sem_wait_pass x 0 d' = (x, .again) ∨
        ∃ ret, sem_wait_pass x 0 d' = (wrap_int (x - 1), .acquired ret) := by
      intro x d'
      rw [sem_wait_pass_cases, if_neg (hnot d')]
      by_cases hz : x = 0
      · left; rw [if_pos hz]
      · right; rw [if_neg hz]; exact ⟨_, rfl⟩
    refine ⟨?_, hcases sem d, ?_⟩
    · rcases hcases sem d with h | ⟨ret, h⟩ <;> rw [h] <;> simp
    · intro start_time tsc s r h
      obtain ⟨hne, pre, now, post, _, _, hn⟩ := sem_wait_loop_exit sem 0 start_time tsc s r h
      rcases hcases sem (delta_ticks now start_time) with h' | ⟨ret, h'⟩
      · rw [h'] at hn
        simp only [Prod.mk.injEq] at hn
        exact absurd hn.2.symm hne
      · rw [h'] at hn
        simp only [Prod.mk.injEq] at hn
        exact ⟨ret, hn.2.symm⟩

/-- Witness for C8: counter 1, timeout 3, 8000000 ticks elapsed. -/
theorem sem_wait_timeout_first_witness :
    3 < 2 ^ 32 ∧ sem_wait_pass 1 3 8000000 = (1, .timed_out) ∧
    poll_t.retval (sem_wait_pass 1 3 8000000).2 = some SYS_ARCH_TIMEOUT :=
  ⟨by decide,
   ((sem_wait_timeout_first 1 3 8000000 (by decide)).1 (by decide) (by decide)).1,
   ((sem_wait_timeout_first 1 3 8000000 (by decide)).1 (by decide) (by decide)).2.1⟩

/-- C9: the elapsed-time result is exact and bounded.  For a 32-bit `timeout`
the `uint64_t` product `timeout * cpu_hz` does not wrap; when `timeout != 0`,
a pass of `sys_arch_sem_wait` or of `sys_arch_mbox_fetch` that acquires with
elapsed tick count `d` returns `floor(d / 2400000)`, which is at most
`timeout` and below `2 ^ 32`, so the conversion to `u32_t` keeps it; and a call
of either function that returns after acquiring returns that value for the
tick count of the pass that acquired. -/
theorem elapsed_exact (timeout : Nat) (ht : timeout < 2 ^ 32) :
    timeout_ticks timeout = timeout * 2400000 ∧ timeout * 2400000 < 2 ^ 64 ∧
    (timeout ≠ 0 →
      (∀ sem d s ret, sem_wait_pass sem timeout d = (s, .acquired ret) →
        ret = d / 2400000 ∧ ret ≤ timeout ∧ d / 2400000 < 2 ^ 32) ∧
      (∀ mbox out d m o ret, mbox_fetch_pass mbox out timeout d = (m, o, .acquired ret) →
        ret = d / 2400000 ∧ ret ≤ timeout ∧ d / 2400000 < 2 ^ 32) ∧
      (∀ sem start_time tsc s ret,
        sys_arch_sem_wait sem timeout start_time tsc = some (s, .acquired ret) →
        ∃ now ∈ tsc, ret = delta_ticks now start_time / 2400000 ∧ ret ≤ timeout ∧
          poll_t.retval (.acquired ret) = some (delta_ticks now start_time / 2400000)) ∧
      (∀ mbox out start_time tsc m o ret,
        sys_arch_mbox_fetch mbox out timeout start_time tsc = some (m, o, .acquired ret) →
        ∃ now ∈ tsc, ret = delta_ticks now start_time / 2400000 ∧ ret ≤ timeout ∧
          poll_t.retval (.acquired ret) = some (delta_ticks now start_time / 2400000))) := by
  have hsem : timeout ≠ 0 → ∀ sem d s ret,
      sem_wait_pass sem timeout d = (s, .acquired ret) →
      ret = d / 2400000 ∧ ret ≤ timeout ∧ d / 2400000 < 2 ^ 32 := by
    intro h0 sem d s ret h
    rw [sem_wait_pass_cases] at h
    split_ifs at h with hto hz
    · simp at h
    · simp at h
    · simp only [Prod.mk.injEq, poll_t.acquired.injEq] at h
      obtain ⟨he, hq⟩ := elapsed_bound timeout d ht hto h0
      rw [← h.2, he]
      exact ⟨rfl, hq, by omega⟩
  have hmb : timeout ≠ 0 → ∀ mbox out d m o ret,
      mbox_fetch_pass mbox out timeout d = (m, o, .acquired ret) →
      ret = d / 2400000 ∧ ret ≤ timeout ∧ d / 2400000 < 2 ^ 32 := by
    intro h0 mbox out d m o ret h
    rw [mbox_fetch_pass_cases] at h
    split_ifs at h with hto hz
    · simp at h
    · simp at h
    · simp only [Prod.mk.injEq, poll_t.acquired.injEq] at h
      obtain ⟨he, hq⟩ := elapsed_bound timeout d ht hto h0
      rw [← h.2.2, he]
      exact ⟨rfl, hq, by omega⟩
  refine ⟨timeout_ticks_exact timeout ht, ?_, fun h0 => ⟨hsem h0, hmb h0, ?_, ?_⟩⟩
  · have : timeout * 2400000 < 2 ^ 32 * 2400000 := by omega
    exact lt_trans this (by norm_num)
  · intro sem start_time tsc s ret h
    obtain ⟨_, pre, now, post, htsc, _, hn⟩ := sem_wait_loop_exit sem timeout start_time tsc s _ h
    obtain ⟨h1, h2, _⟩ := hsem h0 _ _ _ _ hn
    exact ⟨now, by simp [htsc], h1, h2, by rw [h1]; rfl⟩
  · intro mbox out start_time tsc m o ret h
    obtain ⟨_, pre, now, post, htsc, _, hn⟩ :=
      mbox_fetch_loop_exit tsc mbox out timeout start_time m o _ h
    obtain ⟨h1, h2, _⟩ := hmb h0 _ _ _ _ _ _ hn
    exact ⟨now, by simp [htsc], h1, h2, by rw [h1]; rfl⟩

/-- Witness for C9: timeout 3; a semaphore with one unit is acquired after
6999990 ticks, the call returning 2. -/
theorem elapsed_exact_witness :
    3 < 2 ^ 32 ∧ timeout_ticks 3 = 3 * 2400000 ∧
    sem_wait_pass 1 3 6999990 = (0, .acquired 2) ∧
    (2 = 6999990 / 2400000 ∧ 2 ≤ 3 ∧ 6999990 / 2400000 < 2 ^ 32) :=
  ⟨by decide, (elapsed_exact 3 (by decide)).1, by decide,
   ((elapsed_exact 3 (by decide)).2.2 (by decide)).1 1 6999990 0 2 (by decide)⟩

/-! ## Region table lemmas -/

theorem rel_inv_span (lo hi : Nat) (a b : pmem_region) (h : rel_inv a b) :
    rel_span lo hi a b :=
  ⟨h.1, h.2.1, h.2.2.1, fun he ha => absurd ha (h.2.2.2 he)⟩

theorem rel_span_congr (lo hi : Nat) (a b a' b' : pmem_region)
    (hae : a'.«end» = a.«end») (haa : attrs a' = attrs a)
    (hbs : b'.start = b.start) (hba : attrs b' = attrs b)
    (hva : rgn_valid a') (hvb : rgn_valid b') (h : rel_span lo hi a b) :
    rel_span lo hi a' b' := by
  obtain ⟨_, _, hle, hsp⟩ := h
  refine ⟨hva, hvb, by rw [hae, hbs]; exact hle, ?_⟩
  intro he ha
  rw [hae] at he ⊢
  rw [hbs] at he
  rw [haa, hba] at ha
  exact hsp he ha

theorem chain_valid (a : pmem_region) (l : pmem_table) (ha : rgn_valid a)
    (h : List.Chain rel_inv a l) : table_valid (a :: l) := by
  induction l generalizing a with
  | nil =>
    intro r hr
    rw [List.mem_singleton] at hr
    rw [hr]; exact ha
  | cons b l ih =>
    rw [List.chain_cons] at h
    intro r hr
    rcases List.mem_cons.1 hr with rfl | hr
    · exact ha
    · exact ih b h.1.2.1 h.2 r hr

theorem merge_from_inv (lo hi : Nat) :
    ∀ (rest : pmem_table) (cur : pmem_region), rgn_valid cur →
      List.Chain (rel_span lo hi) cur rest →
      ∃ h tl, merge_from lo hi cur rest = h :: tl ∧ h.start = cur.start ∧
        attrs h = attrs cur ∧ rgn_valid h ∧ List.Chain rel_inv h tl
  | [], cur, hv, _ => ⟨cur, [], rfl, rfl, rfl, hv, List.Chain.nil⟩
  | b :: rest, cur, hv, hc => by
    rw [List.chain_cons] at hc
    obtain ⟨hcb, hrest⟩ := hc
    obtain ⟨_, hvb, hle, hsp⟩ := hcb
    unfold merge_from
    split_ifs with hm
    · obtain ⟨he, _, _, ha⟩ := hm
      have hv' : rgn_valid { cur with «end» := b.«end» } := by
        unfold rgn_valid at hv hvb ⊢
        show cur.start < b.«end»
        omega
      have hc' : List.Chain (rel_span lo hi) { cur with «end» := b.«end» } rest := by
        cases rest with
        | nil => exact List.Chain.nil
        | cons c rest' =>
          rw [List.chain_cons] at hrest ⊢
          exact ⟨rel_span_congr lo hi b c _ c rfl ha rfl rfl hv' hrest.1.2.1 hrest.1, hrest.2⟩
      obtain ⟨h, tl, e, hs, hat, hvh, hch⟩ := merge_from_inv lo hi rest _ hv' hc'
      exact ⟨h, tl, e, hs, hat, hvh, hch⟩
    · obtain ⟨h, tl, e, hs, hat, hvh, hch⟩ := merge_from_inv lo hi rest b hvb hrest
      refine ⟨cur, h :: tl, by rw [e], rfl, rfl, hv, List.Chain.cons ⟨hv, hvh, ?_, ?_⟩ hch⟩
      · rw [hs]; exact hle
      · intro he ha
        rw [hs] at he
        rw [hat] at ha
        obtain ⟨h1, h2⟩ := hsp he ha
        exact absurd ⟨he, h1, h2, ha⟩ hm

theorem merge_span_inv (lo hi : Nat) (t : pmem_table) (hv : table_valid t)
    (hc : List.Chain' (rel_span lo hi) t) : table_inv (merge_span lo hi t) := by
  cases t with
  | nil => exact ⟨fun r hr => (by cases hr), List.chain'_nil⟩
  | cons a rest =>
    obtain ⟨h, tl, e, _, _, hvh, hch⟩ :=
      merge_from_inv lo hi rest a (hv a (List.mem_cons_self _ _)) hc
    show table_inv (merge_from lo hi a rest)
    rw [e]
    exact ⟨chain_valid h tl hvh hch, hch⟩

theorem table_insert_head (r : pmem_region) (t : pmem_table) :
    ∀ y ∈ (table_insert r t).head?, y = r ∨ y ∈ t.head? := by
  intro y hy
  cases t with
  | nil =>
    simp only [table_insert, List.head?_cons, Option.mem_def, Option.some.injEq] at hy
    exact Or.inl hy.symm
  | cons x xs =>
    unfold table_insert at hy
    split_ifs at hy
    · simp only [List.head?_cons, Option.mem_def, Option.some.injEq] at hy
      exact Or.inl hy.symm
    · exact Or.inr hy

theorem table_insert_valid (r : pmem_region) (hr : rgn_valid r) (t : pmem_table)
    (hv : table_valid t) : table_valid (table_insert r t) := by
  induction t with
  | nil =>
    intro x hx
    simp only [table_insert, List.mem_singleton] at hx
    rw [hx]; exact hr
  | cons x xs ih =>
    have hvx : table_valid xs := fun y hy => hv y (List.mem_cons_of_mem _ hy)
    intro y hy
    unfold table_insert at hy
    split_ifs at hy
    · rcases List.mem_cons.1 hy with rfl | hy
      · exact hr
      · exact hv y hy
    · rcases List.mem_cons.1 hy with rfl | hy
      · exact hv y (List.mem_cons_self _ _)
      · exact ih hvx y hy

theorem table_insert_span (r : pmem_region) (hr : rgn_valid r) (t : pmem_table)
    (hv : table_valid t) (hc : List.Chain' rel_inv t)
    (hno : ∀ x ∈ t, overlaps r x = false) :
    List.Chain' (rel_span r.start r.«end») (table_insert r t) := by
  induction t with
  | nil => exact List.chain'_singleton r
  | cons x xs ih =>
    have hvx := hv x (List.mem_cons_self _ _)
    have hox := hno x (List.mem_cons_self _ _)
    unfold rgn_valid at hr hvx
    simp only [overlaps, Bool.and_eq_false_iff, decide_eq_false_iff_not] at hox
    have hspan : List.Chain' (rel_span r.start r.«end») (x :: xs) :=
      hc.imp (rel_inv_span _ _)
    unfold table_insert
    split_ifs with hlt
    · refine List.Chain'.cons' hspan ?_
      intro y hy
      simp only [List.head?_cons, Option.mem_def, Option.some.injEq] at hy
      subst hy
      refine ⟨hr, hvx, by omega, fun _ _ => by omega⟩
    · have ih' := ih (fun y hy => hv y (List.mem_cons_of_mem _ hy)) hc.tail
        (fun y hy => hno y (List.mem_cons_of_mem _ hy))
      refine List.Chain'.cons' ih' ?_
      intro y hy
      rcases table_insert_head r xs y hy with rfl | hy
      · refine ⟨hvx, hr, by omega, fun _ _ => by omega⟩
      · exact hspan.rel_head? hy

theorem pmem_add_inv (t t' : pmem_table) (rgn : pmem_region) (hi : table_inv t)
    (h : pmem_add t rgn = .ok t') : table_inv t' := by
  unfold pmem_add at h
  split_ifs at h with h1 h2
  simp only [Except.ok.injEq] at h
  subst h
  have hr : rgn_valid rgn := h1
  have hno : ∀ x ∈ t, overlaps rgn x = false := by
    intro x hx
    by_contra hc
    exact h2 (List.any_eq_true.2 ⟨x, hx, by simpa using hc⟩)
  exact merge_span_inv _ _ _ (table_insert_valid rgn hr t hi.1)
    (table_insert_span rgn hr t hi.1 hi.2 hno)

theorem split_at_head (p : Nat) (t : pmem_table) (hv : table_valid t) :
    ∀ y ∈ (split_at p t).head?, ∃ x ∈ t.head?,
      y.start = x.start ∧ attrs y = attrs x ∧ rgn_valid y := by
  intro y hy
  cases t with
  | nil => simp [split_at] at hy
  | cons x xs =>
    have hvx := hv x (List.mem_cons_self _ _)
    unfold split_at at hy
    split_ifs at hy with hsp
    · simp only [List.head?_cons, Option.mem_def, Option.some.injEq] at hy
      subst hy
      exact ⟨x, rfl, rfl, rfl, hsp.1⟩
    · simp only [List.head?_cons, Option.mem_def, Option.some.injEq] at hy
      subst hy
      exact ⟨_, rfl, rfl, rfl, hvx⟩

theorem split_at_valid (p : Nat) (t : pmem_table) (hv : table_valid t) :
    table_valid (split_at p t) := by
  induction t with
  | nil => intro r hr; simp [split_at] at hr
  | cons x xs ih =>
    have hvx := hv x (List.mem_cons_self _ _)
    have ih' := ih (fun y hy => hv y (List.mem_cons_of_mem _ hy))
    intro y hy
    unfold split_at at hy
    split_ifs at hy with hsp
    · rcases List.mem_cons.1 hy with rfl | hy
      · exact hsp.1
      · rcases List.mem_cons.1 hy with rfl | hy
        · exact hsp.2
        · exact ih' y hy
    · rcases List.mem_cons.1 hy with rfl | hy
      · exact hvx
      · exact ih' y hy

theorem split_at_span (lo hi p : Nat) (hlo : lo ≤ p) (hhi : p ≤ hi) (t : pmem_table)
    (hv : table_valid t) (hc : List.Chain' (rel_span lo hi) t) :
    List.Chain' (rel_span lo hi) (split_at p t) := by
  induction t with
  | nil => exact List.chain'_nil
  | cons x xs ih =>
    have hvx := hv x (List.mem_cons_self _ _)
    have hvxs : table_valid xs := fun y hy => hv y (List.mem_cons_of_mem _ hy)
    have ih' := ih hvxs hc.tail
    have hnext : ∀ x' : pmem_region, x'.«end» = x.«end» → attrs x' = attrs x →
        rgn_valid x' → ∀ y ∈ (split_at p xs).head?, rel_span lo hi x' y := by
      intro x' he ha hvx' y hy
      obtain ⟨z, hz, hs, hat, hvy⟩ := split_at_head p xs hvxs y hy
      exact rel_span_congr lo hi x z x' y he ha hs hat hvx' hvy (hc.rel_head? hz)
    unfold split_at
    split_ifs with hsp
    · refine List.Chain'.cons' (List.Chain'.cons' ih' (hnext _ rfl rfl hsp.2)) ?_
      intro y hy
      simp only [List.head?_cons, Option.mem_def, Option.some.injEq] at hy
      subst hy
      exact ⟨hsp.1, hsp.2, Nat.le_refl _, fun _ _ => ⟨hlo, hhi⟩⟩
    · exact List.Chain'.cons' ih' (hnext x rfl rfl hvx)

theorem apply_update_start (u r : pmem_region) : (apply_update u r).start = r.start := by
  unfold apply_update overwrite
  split <;> rfl

theorem apply_update_end (u r : pmem_region) : (apply_update u r).«end» = r.«end» := by
  unfold apply_update overwrite
  split <;> rfl

theorem apply_update_outside (u r : pmem_region)
    (h : ¬ (u.start ≤ r.start ∧ r.«end» ≤ u.«end»)) : apply_update u r = r := by
  unfold apply_update
  rw [if_neg h]

theorem apply_update_rel (u a b : pmem_region) (h : rel_span u.start u.«end» a b) :
    rel_span u.start u.«end» (apply_update u a) (apply_update u b) := by
  obtain ⟨hva, hvb, hle, hsp⟩ := h
  unfold rgn_valid at hva hvb
  refine ⟨?_, ?_, ?_, ?_⟩
  · unfold rgn_valid; rw [apply_update_start, apply_update_end]; exact hva
  · unfold rgn_valid; rw [apply_update_start, apply_update_end]; exact hvb
  · rw [apply_update_start, apply_update_end]; exact hle
  · intro he ha
    rw [apply_update_start, apply_update_end] at he
    rw [apply_update_end]
    by_contra hout
    have hcase : a.«end» < u.start ∨ u.«end» < a.«end» := by omega
    have hna : ¬ (u.start ≤ a.start ∧ a.«end» ≤ u.«end») := by omega
    have hnb : ¬ (u.start ≤ b.start ∧ b.«end» ≤ u.«end») := by omega
    rw [apply_update_outside u a hna, apply_update_outside u b hnb] at ha
    exact hout (hsp he ha)

theorem apply_update_valid (u : pmem_region) (t : pmem_table) (hv : table_valid t) :
    table_valid (t.map (apply_update u)) := by
  intro r hr
  obtain ⟨x, hx, rfl⟩ := List.mem_map.1 hr
  have := hv x hx
  unfold rgn_valid at this ⊢
  rw [apply_update_start, apply_update_end]
  exact this

theorem pmem_update_inv (t t' : pmem_table) (u : pmem_region) (hi : table_inv t)
    (h : pmem_update t u = .ok t') : table_inv t' := by
  unfold pmem_update at h
  split_ifs at h with h1 h2
  simp only [Except.ok.injEq] at h
  subst h
  have hr : u.start < u.«end» := h1
  have hc0 : List.Chain' (rel_span u.start u.«end») t := hi.2.imp (rel_inv_span _ _)
  have hv1 := split_at_valid u.start t hi.1
  have hc1 := split_at_span u.start u.«end» u.start (Nat.le_refl _) (Nat.le_of_lt hr) t hi.1 hc0
  have hv2 := split_at_valid u.«end» _ hv1
  have hc2 := split_at_span u.start u.«end» u.«end» (Nat.le_of_lt hr) (Nat.le_refl _) _ hv1 hc1
  have hv3 := apply_update_valid u _ hv2
  have hc3 : List.Chain' (rel_span u.start u.«end»)
      ((split_at u.«end» (split_at u.start t)).map (apply_update u)) :=
    (List.chain'_map (apply_update u)).2 (hc2.imp (apply_update_rel u))
  exact merge_span_inv _ _ _ hv3 hc3

theorem pmem_alloc_inv (t t' : pmem_table) (size alignment : Nat)
    (constraint : Option pmem_region) (d : pmem_region) (hi : table_inv t)
    (h : pmem_alloc t size alignment constraint = .ok (t', d)) : table_inv t' := by
  unfold pmem_alloc at h
  simp only at h
  generalize (if alignment = 0 then 1 else alignment) = al at h
  split_ifs at h
  split at h
  · cases h
  · split at h
    · next a t'' hup =>
      simp only [Except.ok.injEq, Prod.mk.injEq] at h
      rw [← h.1]
      exact pmem_update_inv t t'' _ hi hup
    · cases h

theorem pmem_step_inv (t t' : pmem_table) (c : pmem_call) (hi : table_inv t)
    (h : pmem_step t c = some t') : table_inv t' := by
  cases c with
  | add rgn =>
    simp only [pmem_step] at h
    split at h
    · next t'' hadd =>
      simp only [Option.some.injEq] at h
      rw [← h]; exact pmem_add_inv t t'' rgn hi hadd
    · cases h
  | update u =>
    simp only [pmem_step] at h
    split at h
    · next t'' hup =>
      simp only [Option.some.injEq] at h
      rw [← h]; exact pmem_update_inv t t'' u hi hup
    · cases h
  | alloc size alignment constraint =>
    simp only [pmem_step] at h
    split at h
    · next t'' d hal =>
      simp only [Option.some.injEq] at h
      rw [← h]; exact pmem_alloc_inv t t'' size alignment constraint d hi hal
    · cases h

theorem pmem_run_inv (cs : List pmem_call) (t t' : pmem_table) (hi : table_inv t)
    (h : pmem_run t cs = some t') : table_inv t' := by
  induction cs generalizing t with
  | nil =>
    simp only [pmem_run, Option.some.injEq] at h
    rw [← h]; exact hi
  | cons c cs ih =>
    simp only [pmem_run] at h
    split at h
    · next t'' hst => exact ih t'' (pmem_step_inv t t'' c hi hst) h
    · cases h

theorem table_inv_pairwise (t : pmem_table) (hi : table_inv t) :
    t.Pairwise (fun a b => a.«end» ≤ b.start) ∧
    t.Pairwise (fun a b => a.«end» = b.start → attrs a ≠ attrs b) := by
  obtain ⟨hv, hc⟩ := hi
  induction t with
  | nil => exact ⟨List.Pairwise.nil, List.Pairwise.nil⟩
  | cons x xs ih =>
    have hvxs : table_valid xs := fun y hy => hv y (List.mem_cons_of_mem _ hy)
    obtain ⟨ih1, ih2⟩ := ih hvxs hc.tail
    have hfar : ∀ y ∈ xs, x.«end» ≤ y.start ∧ (x.«end» = y.start → attrs x ≠ attrs y) := by
      intro y hy
      cases xs with
      | nil => cases hy
      | cons z zs =>
        have hxz := (List.chain'_cons.1 hc).1
        rcases List.mem_cons.1 hy with rfl | hy
        · exact ⟨hxz.2.2.1, hxz.2.2.2⟩
        · have hzy := (List.pairwise_cons.1 ih1).1 y hy
          have hvz := hxz.2.1
          have hle := hxz.2.2.1
          unfold rgn_valid at hvz
          exact ⟨by omega, fun he => by omega⟩
    exact ⟨List.pairwise_cons.2 ⟨fun y hy => (hfar y hy).1, ih1⟩,
      List.pairwise_cons.2 ⟨fun y hy => (hfar y hy).2, ih2⟩⟩

/-! ## Region descriptors and the partition invariant -/

/-- C1: in `struct pmem_region` each of the four optional fields has its own
presence flag, independent of the field's value: a descriptor whose flag for a
field is clear and a descriptor whose flag for that field is set are distinct,
whatever values the fields hold, so no value of a field acts as a sentinel
for "unset". -/
theorem presence_flag_independent (a b : pmem_region) :
    (a.type_is_set = false → b.type_is_set = true → a ≠ b) ∧
    (a.lgroup_is_set = false → b.lgroup_is_set = true → a ≠ b) ∧
    (a.allocated_is_set = false → b.allocated_is_set = true → a ≠ b) ∧
    (a.name_is_set = false → b.name_is_set = true → a ≠ b) := by
  refine ⟨?_, ?_, ?_, ?_⟩ <;>
  · intro h1 h2 h
    rw [h, h2] at h1
    cases h1

/-- Witness for C1: all flags clear against all flags set, the values being
`PMEM_TYPE_BOOTMEM`, lgroup 0, `allocated = false` and the empty name on both
sides. -/
theorem presence_flag_independent_witness :
    (rgn_unset.type_is_set = false ∧ rgn_set.type_is_set = true ∧
      rgn_unset.type = rgn_set.type ∧ rgn_set.type.toNat = 0 ∧ rgn_unset ≠ rgn_set) ∧
    (rgn_unset.lgroup_is_set = false ∧ rgn_set.lgroup_is_set = true ∧
      rgn_unset.lgroup = rgn_set.lgroup ∧ rgn_unset ≠ rgn_set) ∧
    (rgn_unset.allocated_is_set = false ∧ rgn_set.allocated_is_set = true ∧
      rgn_set.allocated = false ∧ rgn_unset ≠ rgn_set) ∧
    (rgn_unset.name_is_set = false ∧ rgn_set.name_is_set = true ∧
      rgn_set.name = empty_name ∧ rgn_unset ≠ rgn_set) :=
  ⟨⟨rfl, rfl, rfl, rfl, (presence_flag_independent rgn_unset rgn_set).1 rfl rfl⟩,
   ⟨rfl, rfl, rfl, (presence_flag_independent rgn_unset rgn_set).2.1 rfl rfl⟩,
   ⟨rfl, rfl, rfl, (presence_flag_independent rgn_unset rgn_set).2.2.1 rfl rfl⟩,
   ⟨rfl, rfl, rfl, (presence_flag_independent rgn_unset rgn_set).2.2.2 rfl rfl⟩⟩

/-- C2, as stated, fails: two descriptors over the same `[start, end)`, with
the same (clear) presence flags and so equal on every present field, differ in
the raw `type` member. -/
theorem absent_field_two_representations :
    same_interval rgn_unset rgn_unset_umem ∧ same_flags rgn_unset rgn_unset_umem ∧
    same_present_values rgn_unset rgn_unset_umem ∧ rgn_unset ≠ rgn_unset_umem := by
  refine ⟨⟨rfl, rfl⟩, ⟨rfl, rfl, rfl, rfl⟩, ⟨?_, ?_, ?_, ?_⟩, by decide⟩ <;>
  · intro h
    cases h

/-- C2, amended: each optional attribute is a raw value with a separate
boolean flag, so an absent field still carries a raw value.  Two descriptors
with the same `[start, end)`, the same presence flags and equal values on
every present field are equal exactly when they also hold equal raw values in
every absent field. -/
theorem region_eq_iff_absent_values (a b : pmem_region) (hi : same_interval a b)
    (hf : same_flags a b) (hp : same_present_values a b) :
    a = b ↔ same_absent_values a b := by
  constructor
  · intro h
    subst h
    exact ⟨fun _ => rfl, fun _ => rfl, fun _ => rfl, fun _ => rfl⟩
  · intro ha
    obtain ⟨hs, he⟩ := hi
    obtain ⟨f1, f2, f3, f4⟩ := hf
    obtain ⟨p1, p2, p3, p4⟩ := hp
    obtain ⟨a1, a2, a3, a4⟩ := ha
    have v1 : a.type = b.type := by
      cases h : a.type_is_set
      · exact a1 h
      · exact p1 h
    have v2 : a.lgroup = b.lgroup := by
      cases h : a.lgroup_is_set
      · exact a2 h
      · exact p2 h
    have v3 : a.allocated = b.allocated := by
      cases h : a.allocated_is_set
      · exact a3 h
      · exact p3 h
    have v4 : a.name = b.name := by
      cases h : a.name_is_set
      · exact a4 h
      · exact p4 h
    cases a
    cases b
    simp only [pmem_region.mk.injEq]
    exact ⟨hs, he, f1, v1, f2, v2, f3, v3, f4, v4⟩

/-- Witness for C2 amended: `rgn_unset` and `rgn_unset_umem` agree on interval,
flags and present fields, and differ because the raw `type` of the absent
field differs. -/
theorem region_eq_iff_absent_values_witness :
    same_interval rgn_unset rgn_unset_umem ∧ same_flags rgn_unset rgn_unset_umem ∧
    same_present_values rgn_unset rgn_unset_umem ∧
    (rgn_unset = rgn_unset_umem ↔ same_absent_values rgn_unset rgn_unset_umem) :=
  ⟨⟨rfl, rfl⟩, ⟨rfl, rfl, rfl, rfl⟩,
   ⟨fun h => Bool.noConfusion h, fun h => Bool.noConfusion h,
     fun h => Bool.noConfusion h, fun h => Bool.noConfusion h⟩,
   region_eq_iff_absent_values rgn_unset rgn_unset_umem ⟨rfl, rfl⟩ ⟨rfl, rfl, rfl, rfl⟩
     ⟨fun h => Bool.noConfusion h, fun h => Bool.noConfusion h,
     fun h => Bool.noConfusion h, fun h => Bool.noConfusion h⟩⟩

/-- C3: partition invariant of the region table.  Starting from the empty
table, after every sequence of successful `pmem_add` / `pmem_update` /
`pmem_alloc` calls every stored region has `start < end`, the stored regions
are in ascending order and pairwise non-overlapping, and no two stored regions
that are adjacent (one ends where the other starts) have equal attribute sets,
presence flags included. -/
theorem partition_invariant (calls : List pmem_call) (t : pmem_table)
    (h : pmem_run [] calls = some t) :
    (∀ r ∈ t, r.start < r.«end») ∧
    t.Pairwise (fun a b => a.«end» ≤ b.start) ∧
    t.Pairwise (fun a b => overlaps a b = false) ∧
    t.Pairwise (fun a b => a.«end» = b.start → attrs a ≠ attrs b) := by
  have hi : table_inv t :=
    pmem_run_inv calls [] t ⟨fun r hr => (by cases hr), List.chain'_nil⟩ h
  obtain ⟨hp1, hp2⟩ := table_inv_pairwise t hi
  refine ⟨hi.1, hp1, hp1.imp ?_, hp2⟩
  intro a b hab
  simp only [overlaps, Bool.and_eq_false_iff, decide_eq_false_iff_not]
  right
  omega

/-- Witness for C3: `add([0,1000), kernel-managed)` followed by
`allocate(size=64, alignment=64, constraint=[0,1000))`. -/
theorem partition_invariant_witness :
    pmem_run [] calls_add_alloc = some table_after_alloc ∧
    (∀ r ∈ table_after_alloc, r.start < r.«end») ∧
    table_after_alloc.Pairwise (fun a b => a.«end» ≤ b.start) ∧
    table_after_alloc.Pairwise (fun a b => overlaps a b = false) ∧
    table_after_alloc.Pairwise (fun a b => a.«end» = b.start → attrs a ≠ attrs b) :=
  ⟨by decide, partition_invariant calls_add_alloc table_after_alloc (by decide)⟩

/-! ### The scenarios of section 8 on the modelled table -/

/-- Scenario: `add([0,100), type=A)`; `add([100,200), type=A)`: both entries
merge into one `[0,200), type=A`. -/
theorem scenario_add_merges :
    pmem_run [] [.add (kmem_rgn 0 100), .add (kmem_rgn 100 200)] = some [kmem_rgn 0 200] := by
  decide

/-- Scenario: on `[0,1000)` kernel-managed, `allocate(size=64, alignment=64)`
returns `[0,64)`, a second identical call `[64,128)`, and
`allocate(size=2000)` fails with `OutOfMemory`. -/
theorem scenario_first_fit :
    (pmem_alloc [kmem_rgn 0 1000] 64 64 (some (kmem_rgn 0 1000))).map Prod.snd =
      .ok (alloc_request 0 64) ∧
    (pmem_alloc table_after_alloc 64 64 (some (kmem_rgn 0 1000))).map Prod.snd =
      .ok (alloc_request 64 64) ∧
    pmem_alloc [kmem_rgn 0 1000] 2000 0 (some (kmem_rgn 0 1000)) = .error .OutOfMemory := by
  exact ⟨rfl, rfl, rfl⟩

/-- Scenario: `add([0,50))`; `update([25,75), allocated=true)` fails with
`NotFound` because `[50,75)` was never registered. -/
theorem scenario_update_not_found :
    pmem_update [kmem_rgn 0 50] (allocated_rgn 25 75 true) = .error .NotFound :=
  rfl

end Kitten
